import Mathlib

/-!
Manber-Myers suffix-array construction (`src/manbermyers.cpp`)

A shallow embedding of `countingSort`, `radixSort` and `manberMyers`.

* `std::vector` is a `List`; `v[i]` past the end is undefined behaviour in the
  source and is the fault `Fault.outOfRange` here.
* `size_t` is `Nat`.  The only arithmetic is `i + halfSize`, `halfSize *= 2`,
  `i++` and `index++`; all of them stay below twice the vector length, and a
  `std::vector<size_t>` cannot hold `2^63` elements, so no operation wraps
  in a run of `manberMyers`.  For a window chosen freely the sum
  `i + halfSize` can wrap; `iterationW` is the loop body with that sum taken
  modulo the word size, and it is `iteration` whenever the sum fits.
* The `for (halfSize = 1; halfSize < size; halfSize *= 2)` loop takes a fuel
  argument; `manberMyers_fault` shows that the fuel `manberMyers` passes is
  never used up, whatever the text.
-/

namespace ManberMyers

/-- Ways in which a run of the model can fail to return. -/
inductive Fault where
  | outOfRange
  | outOfFuel
deriving DecidableEq, Repr

/-- The `Suffix` struct: a pair of ranks and the position it was built for. -/
structure Suffix where
  entry : Nat × Nat
  index : Nat
deriving DecidableEq, Repr

/-- `std::get<Index>` on a two-component tuple. -/
def getEntry (Index : Fin 2) (e : Nat × Nat) : Nat :=
  if Index = 0 then e.1 else e.2

/-- The read `v[i]`. -/
def readAt {α : Type} (v : List α) (i : Nat) : Except Fault α :=
  match v[i]? with
  | some x => .ok x
  | none => .error .outOfRange

/-- The write `v[i] = x`. -/
def writeAt {α : Type} (v : List α) (i : Nat) (x : α) : Except Fault (List α) :=
  if i < v.length then .ok (v.set i x) else .error .outOfRange

/-- First loop of `countingSort`: `buckets[get<Index>(str.entry)].push_back(str)`
for every `str` of `strings`, in order. -/
def distribute (Index : Fin 2) : List Suffix → List (List Suffix) → Except Fault (List (List Suffix))
  | [], buckets => .ok buckets
  | str :: rest, buckets => do
    let bucket ← readAt buckets (getEntry Index str.entry)
    distribute Index rest (buckets.set (getEntry Index str.entry) (bucket ++ [str]))

/-- Inner gather loop over one bucket: `strings[i] = entry; i++`. -/
def gatherBucket : List Suffix → List Suffix → Nat → Except Fault (List Suffix × Nat)
  | [], strings, i => .ok (strings, i)
  | entry :: rest, strings, i => do
    let strings1 ← writeAt strings i entry
    gatherBucket rest strings1 (i + 1)

/-- Outer gather loop: every bucket is copied back and then cleared. -/
def gather : List (List Suffix) → List Suffix → Nat → Except Fault (List Suffix × List (List Suffix))
  | [], strings, _ => .ok (strings, [])
  | bucket :: rest, strings, i => do
    let (strings1, i1) ← gatherBucket bucket strings i
    let (strings2, rest2) ← gather rest strings1 i1
    .ok (strings2, [] :: rest2)

/-- The template `countingSort<Index>(strings, buckets)`; returns the new
contents of both reference arguments. -/
def countingSort (Index : Fin 2) (strings : List Suffix) (buckets : List (List Suffix)) :
    Except Fault (List Suffix × List (List Suffix)) := do
  let buckets1 ← distribute Index strings buckets
  gather buckets1 strings 0

/-- The function `radixSort(strings)`. -/
def radixSort (strings : List Suffix) : Except Fault (List Suffix) := do
  let buckets : List (List Suffix) := List.replicate strings.length []
  let (strings1, buckets1) ← countingSort 1 strings buckets
  let (strings2, _) ← countingSort 0 strings1 buckets1
  .ok strings2

/-- The pair built for position `i` with the current `halfSize`. -/
def makeSuffix (result : List Nat) (halfSize i : Nat) : Suffix :=
  { entry := (result.getD i 0,
              if i + halfSize < result.length then result.getD (i + halfSize) 0 else 0),
    index := i }

/-- The loop that fills `strings`, one `push_back` per position. -/
def buildStrings (result : List Nat) (halfSize : Nat) : List Suffix :=
  (List.range result.length).map (makeSuffix result halfSize)

/-- The loop mapping the sorted list back into `result`; `index` is the
running counter. -/
def recompute : List Suffix → Nat → List Nat → Except Fault (List Nat)
  | [], _, result => .ok result
  | [s], index, result => writeAt result s.index index
  | s :: t :: rest, index, result => do
    let result1 ← writeAt result s.index index
    recompute (t :: rest) (if s.entry ≠ t.entry then index + 1 else index) result1

/-- One execution of the body of the doubling loop. -/
def iteration (result : List Nat) (halfSize : Nat) : Except Fault (List Nat) := do
  let strings ← radixSort (buildStrings result halfSize)
  recompute strings 0 result

/-- The doubling loop `for (halfSize = 1; halfSize < result.size(); halfSize *= 2)`. -/
def doublingLoop : Nat → Nat → List Nat → Except Fault (List Nat)
  | 0, _, _ => .error .outOfFuel
  | fuel + 1, halfSize, result =>
    if halfSize < result.length then do
      let result1 ← iteration result halfSize
      doublingLoop fuel (halfSize * 2) result1
    else .ok result

/-- The final loop `sa[result[i]] = i`, walking `result` with the counter `i`. -/
def invertLoop : List Nat → Nat → List Nat → Except Fault (List Nat)
  | [], _, sa => .ok sa
  | r :: rest, i, sa => do
    let sa1 ← writeAt sa r i
    invertLoop rest (i + 1) sa1

/-- The function `manberMyers(text)`. -/
def manberMyers (text : List Nat) : Except Fault (List Nat) := do
  let result ← doublingLoop (text.length + 1) 1 text
  invertLoop result 0 (List.replicate result.length 0)

/-! ## Specification vocabulary -/

/-- Stable bucket sort written as a specification: for every bucket number in
ascending order, the entries with that key, in their original order. -/
def bucketSort (key : Suffix → Nat) (B : Nat) (strings : List Suffix) : List Suffix :=
  (List.range B).flatMap (fun b => strings.filter (fun s => key s = b))

/-- Strict lexicographic order on pairs of ranks, the order of `tuple<size_t, size_t>`. -/
def lexLT (a b : Nat × Nat) : Prop := a.1 < b.1 ∨ (a.1 = b.1 ∧ a.2 < b.2)

/-- Non-strict lexicographic order on pairs of ranks. -/
def lexLE (a b : Nat × Nat) : Prop := a.1 < b.1 ∨ (a.1 = b.1 ∧ a.2 ≤ b.2)

instance : DecidableRel lexLT := fun a b =>
  inferInstanceAs (Decidable (a.1 < b.1 ∨ (a.1 = b.1 ∧ a.2 < b.2)))

instance : DecidableRel lexLE := fun a b =>
  inferInstanceAs (Decidable (a.1 < b.1 ∨ (a.1 = b.1 ∧ a.2 ≤ b.2)))

/-- The list `radixSort` leaves in `strings`, written with `bucketSort`. -/
def radixSorted (strings : List Suffix) : List Suffix :=
  bucketSort (fun s => getEntry 0 s.entry) strings.length
    (bucketSort (fun s => getEntry 1 s.entry) strings.length strings)

/-- The counter value with which the loop continues after the entry `s`. -/
def nextIndex (s : Suffix) (index : Nat) : List Suffix → Nat
  | [] => index
  | t :: _ => if s.entry ≠ t.entry then index + 1 else index

/-- The character at position `p` of the text extended with zeros past its end. -/
def chr (text : List Nat) (p : Nat) : Nat := text.getD p 0

/-- The length-`w` prefix of the suffix at `p` is lexicographically smaller
than the length-`w` prefix of the suffix at `q`. -/
def prefLT (text : List Nat) (w p q : Nat) : Prop :=
  ∃ k, k < w ∧ (∀ l, l < k → chr text (p + l) = chr text (q + l)) ∧
    chr text (p + k) < chr text (q + k)

/-- The length-`w` prefixes of the suffixes at `p` and `q` are equal. -/
def prefEQ (text : List Nat) (w p q : Nat) : Prop :=
  ∀ l, l < w → chr text (p + l) = chr text (q + l)

/-- The suffix at `p` is lexicographically smaller than the suffix at `q`. -/
def sufLT (text : List Nat) (p q : Nat) : Prop :=
  ∃ k, (∀ l, l < k → chr text (p + l) = chr text (q + l)) ∧
    chr text (p + k) < chr text (q + k)

/-- The suffix at `p` is lexicographically smaller than or equal to the suffix at `q`. -/
def sufLE (text : List Nat) (p q : Nat) : Prop :=
  sufLT text p q ∨ ∀ l, chr text (p + l) = chr text (q + l)

/-- The last element is strictly smaller than every other element. -/
def Sentinel (text : List Nat) : Prop :=
  ∀ i, i < text.length - 1 → text.getD (text.length - 1) 0 < text.getD i 0

/-- Every element is a rank below the length of the text. -/
def InRange (text : List Nat) : Prop :=
  ∀ x ∈ text, x < text.length

instance (text : List Nat) : Decidable (Sentinel text) :=
  inferInstanceAs (Decidable (∀ i, i < text.length - 1 →
    text.getD (text.length - 1) 0 < text.getD i 0))

instance (text : List Nat) : Decidable (InRange text) :=
  inferInstanceAs (Decidable (∀ x ∈ text, x < text.length))

/-- The state of the rank array when the window is `w`: it has the length of
the text, its values are below that length, and it orders positions exactly as
the length-`w` prefixes of their suffixes are ordered. -/
def RankInv (text : List Nat) (w : Nat) (r : List Nat) : Prop :=
  r.length = text.length ∧
  (∀ p, p < text.length → r.getD p 0 < text.length) ∧
  ∀ p q, p < text.length → q < text.length →
    (r.getD p 0 < r.getD q 0 ↔ prefLT text w p q)

/-! ## Loop states -/

/-- The states in which the head of the doubling loop is reached on `text`:
`Reaches text halfSize result` holds for the initial state and for every state
obtained from a reached state by one execution of the loop body. -/
inductive Reaches (text : List Nat) : Nat → List Nat → Prop where
  | init : Reaches text 1 text
  | step {w : Nat} {r r1 : List Nat} :
      Reaches text w r → w < r.length → iteration r w = .ok r1 → Reaches text (w * 2) r1

/-! ## Step counting

The same functions with a step counter `t` threaded through them.  One step is
charged for every execution of a loop body and for every evaluation of the
test of the doubling loop, and `n` steps for every construction or copy of a
vector of `n` elements. -/

/-- Loop `distribute` with the counter: one step per `push_back`. -/
def distributeT (Index : Fin 2) :
    List Suffix → List (List Suffix) → Nat → Except Fault (List (List Suffix) × Nat)
  | [], buckets, t => .ok (buckets, t)
  | str :: rest, buckets, t => do
    let bucket ← readAt buckets (getEntry Index str.entry)
    distributeT Index rest (buckets.set (getEntry Index str.entry) (bucket ++ [str])) (t + 1)

/-- Loop `gatherBucket` with the counter: one step per copied entry. -/
def gatherBucketT :
    List Suffix → List Suffix → Nat → Nat → Except Fault ((List Suffix × Nat) × Nat)
  | [], strings, i, t => .ok ((strings, i), t)
  | entry :: rest, strings, i, t => do
    let strings1 ← writeAt strings i entry
    gatherBucketT rest strings1 (i + 1) (t + 1)

/-- Loop `gather` with the counter: one step per bucket on top of its entries. -/
def gatherT : List (List Suffix) → List Suffix → Nat → Nat →
    Except Fault ((List Suffix × List (List Suffix)) × Nat)
  | [], strings, _, t => .ok ((strings, []), t)
  | bucket :: rest, strings, i, t => do
    let ((strings1, i1), t1) ← gatherBucketT bucket strings i (t + 1)
    let ((strings2, rest2), t2) ← gatherT rest strings1 i1 t1
    .ok ((strings2, [] :: rest2), t2)

/-- Function `countingSort` with the counter. -/
def countingSortT (Index : Fin 2) (strings : List Suffix) (buckets : List (List Suffix))
    (t : Nat) : Except Fault ((List Suffix × List (List Suffix)) × Nat) := do
  let (buckets1, t1) ← distributeT Index strings buckets t
  gatherT buckets1 strings 0 t1

/-- Function `radixSort` with the counter; building the vector of buckets is
charged one step per bucket. -/
def radixSortT (strings : List Suffix) (t : Nat) : Except Fault (List Suffix × Nat) := do
  let buckets : List (List Suffix) := List.replicate strings.length []
  let ((strings1, buckets1), t1) ← countingSortT 1 strings buckets (t + strings.length)
  let ((strings2, _), t2) ← countingSortT 0 strings1 buckets1 t1
  .ok (strings2, t2)

/-- Loop `recompute` with the counter: one step per entry. -/
def recomputeT : List Suffix → Nat → List Nat → Nat → Except Fault (List Nat × Nat)
  | [], _, result, t => .ok (result, t)
  | [s], index, result, t => do
    let result1 ← writeAt result s.index index
    .ok (result1, t + 1)
  | s :: u :: rest, index, result, t => do
    let result1 ← writeAt result s.index index
    recomputeT (u :: rest) (if s.entry ≠ u.entry then index + 1 else index) result1 (t + 1)

/-- Loop body `iteration` with the counter; filling `strings` is charged one
step per position. -/
def iterationT (result : List Nat) (halfSize : Nat) (t : Nat) :
    Except Fault (List Nat × Nat) := do
  let (strings, t1) ← radixSortT (buildStrings result halfSize) (t + result.length)
  recomputeT strings 0 result t1

/-- The doubling loop with the counter: one step per evaluation of its test. -/
def doublingLoopT : Nat → Nat → List Nat → Nat → Except Fault (List Nat × Nat)
  | 0, _, _, _ => .error .outOfFuel
  | fuel + 1, halfSize, result, t =>
    if halfSize < result.length then do
      let (result1, t1) ← iterationT result halfSize (t + 1)
      doublingLoopT fuel (halfSize * 2) result1 t1
    else .ok (result, t + 1)

/-- Loop `invertLoop` with the counter: one step per position. -/
def invertLoopT : List Nat → Nat → List Nat → Nat → Except Fault (List Nat × Nat)
  | [], _, sa, t => .ok (sa, t)
  | r :: rest, i, sa, t => do
    let sa1 ← writeAt sa r i
    invertLoopT rest (i + 1) sa1 (t + 1)

/-- Function `manberMyers` with the counter, started at 0; the copy of `text`
and the construction of `sa` are charged one step per element. -/
def manberMyersT (text : List Nat) : Except Fault (List Nat × Nat) := do
  let (result, t1) ← doublingLoopT (text.length + 1) 1 text text.length
  invertLoopT result 0 (List.replicate result.length 0) (t1 + result.length)

/-! ## Counting composite keys -/

/-- The set of composite keys that occur in a list of entries. -/
def keySet (L : List Suffix) : Finset (Nat × Nat) := (L.map Suffix.entry).toFinset

/-- The number of distinct composite keys of `L` strictly smaller than `k`. -/
def keysBelow (L : List Suffix) (k : Nat × Nat) : Nat :=
  ((keySet L).filter (fun e => lexLT e k)).card

/-- The number of distinct composite keys of `L`. -/
def distinctKeys (L : List Suffix) : Nat := (keySet L).card

/-! ## Windows of the doubling loop -/

/-- The doubling loop with a record of the values of `halfSize` with which its
body was executed, in order. -/
def doublingLoopTrace : Nat → Nat → List Nat → List Nat → Except Fault (List Nat × List Nat)
  | 0, _, _, _ => .error .outOfFuel
  | fuel + 1, halfSize, result, windows =>
    if halfSize < result.length then do
      let result1 ← iteration result halfSize
      doublingLoopTrace fuel (halfSize * 2) result1 (windows ++ [halfSize])
    else .ok (result, windows)

/-! ## The loop body for an arbitrary window

Inside `manberMyers` the window is below the length of the vector, so
`i + halfSize` cannot wrap.  For a window chosen freely the sum is taken in
`size_t`, that is modulo `2 ^ bits` for a word of `bits` bits. -/

/-- The pair built for position `i`, the sum `i + halfSize` being computed in
a word of `bits` bits. -/
def makeSuffixW (bits : Nat) (result : List Nat) (halfSize i : Nat) : Suffix :=
  { entry := (result.getD i 0,
              if (i + halfSize) % 2 ^ bits < result.length
              then result.getD ((i + halfSize) % 2 ^ bits) 0 else 0),
    index := i }

/-- The loop that fills `strings`, with the sums computed in a word of `bits` bits. -/
def buildStringsW (bits : Nat) (result : List Nat) (halfSize : Nat) : List Suffix :=
  (List.range result.length).map (makeSuffixW bits result halfSize)

/-- One execution of the body of the doubling loop, with the sums computed in
a word of `bits` bits. -/
def iterationW (bits : Nat) (result : List Nat) (halfSize : Nat) : Except Fault (List Nat) := do
  let strings ← radixSort (buildStringsW bits result halfSize)
  recompute strings 0 result

/-! ## The monad of faults -/

theorem readAt_of_lt {α : Type} (v : List α) (i : Nat) (d : α) (h : i < v.length) :
    readAt v i = .ok (v.getD i d) := by
  simp [readAt, List.getElem?_eq_getElem h, List.getD_eq_getElem v d h]

theorem readAt_of_ge {α : Type} (v : List α) (i : Nat) (h : v.length ≤ i) :
    readAt v i = .error .outOfRange := by
  simp [readAt, List.getElem?_eq_none h]

theorem writeAt_of_lt {α : Type} (v : List α) (i : Nat) (x : α) (h : i < v.length) :
    writeAt v i x = .ok (v.set i x) := by
  simp [writeAt, h]

theorem writeAt_of_ge {α : Type} (v : List α) (i : Nat) (x : α) (h : v.length ≤ i) :
    writeAt v i x = .error .outOfRange := by
  simp [writeAt, Nat.not_lt.mpr h]

theorem bind_ok {α β : Type} (a : α) (f : α → Except Fault β) :
    (Except.ok a >>= f) = f a := rfl

theorem bind_error {α β : Type} (e : Fault) (f : α → Except Fault β) :
    ((Except.error e : Except Fault α) >>= f) = Except.error e := rfl

/-! ## Counting sort -/

theorem distribute_spec (Index : Fin 2) (strings : List Suffix) :
    ∀ buckets : List (List Suffix),
      (∀ s ∈ strings, getEntry Index s.entry < buckets.length) →
      ∃ buckets1, distribute Index strings buckets = .ok buckets1 ∧
        buckets1.length = buckets.length ∧
        ∀ b, buckets1.getD b [] =
          buckets.getD b [] ++ strings.filter (fun s => getEntry Index s.entry = b) := by
  induction strings with
  | nil => intro buckets _; exact ⟨buckets, rfl, rfl, by simp⟩
  | cons str rest ih =>
    intro buckets hk
    have hstr : getEntry Index str.entry < buckets.length := hk str (by simp)
    obtain ⟨b1, hb1, hlen, hget⟩ :=
      ih (buckets.set (getEntry Index str.entry) (buckets.getD (getEntry Index str.entry) [] ++ [str]))
        (by intro s hs; simpa using hk s (by simp [hs]))
    refine ⟨b1, ?_, by simpa using hlen, ?_⟩
    · simp only [distribute, readAt_of_lt buckets _ [] hstr, bind_ok]
      exact hb1
    · intro b
      rw [hget b]
      by_cases hb : getEntry Index str.entry = b
      · subst hb
        simp [List.getD_eq_getElem?_getD, List.getElem?_set, hstr, List.filter_cons]
      · simp [List.getD_eq_getElem?_getD, List.getElem?_set, hb, List.filter_cons]

theorem gatherBucket_spec (bucket : List Suffix) :
    ∀ (done todo : List Suffix), bucket.length ≤ todo.length →
      gatherBucket bucket (done ++ todo) done.length =
        .ok (done ++ bucket ++ todo.drop bucket.length, done.length + bucket.length) := by
  induction bucket with
  | nil => intro done todo _; simp [gatherBucket]
  | cons e rest ih =>
    intro done todo hlen
    cases todo with
    | nil => simp at hlen
    | cons t todo1 =>
      have hlt : done.length < (done ++ t :: todo1).length := by simp
      have hset : (done ++ t :: todo1).set done.length e = (done ++ [e]) ++ todo1 := by
        simp [List.set_append]
      simp only [gatherBucket, writeAt_of_lt _ _ _ hlt, bind_ok, hset]
      have h := ih (done ++ [e]) todo1 (by simpa using hlen)
      simp only [List.length_append, List.length_singleton] at h
      rw [h]
      simp [Nat.add_assoc, Nat.add_comm 1]

theorem gather_spec (buckets : List (List Suffix)) :
    ∀ (done todo : List Suffix), buckets.flatten.length ≤ todo.length →
      gather buckets (done ++ todo) done.length =
        .ok (done ++ buckets.flatten ++ todo.drop buckets.flatten.length,
             List.replicate buckets.length []) := by
  induction buckets with
  | nil => intro done todo _; simp [gather]
  | cons bucket rest ih =>
    intro done todo hlen
    have hlen1 : bucket.length + rest.flatten.length ≤ todo.length := by
      simpa only [List.flatten_cons, List.length_append] using hlen
    have h1 := gatherBucket_spec bucket done todo (by omega)
    have h2 := ih (done ++ bucket) (todo.drop bucket.length)
      (by rw [List.length_drop]; omega)
    have h3 : done ++ bucket ++ rest.flatten ++ List.drop rest.flatten.length (List.drop bucket.length todo)
        = done ++ (bucket :: rest).flatten ++ List.drop (bucket :: rest).flatten.length todo := by
      simp only [List.flatten_cons, List.length_append, List.drop_drop, List.append_assoc]

    rw [List.length_append, h3] at h2
    simp only [gather, h1, bind_ok, h2]
    rfl

theorem bucketSort_perm_filter (key : Suffix → Nat) (strings : List Suffix) (B : Nat) :
    (bucketSort key B strings).Perm (strings.filter (fun s => key s < B)) := by
  induction B with
  | zero => simp [bucketSort]
  | succ B ih =>
    have hsplit : bucketSort key (B + 1) strings =
        bucketSort key B strings ++ strings.filter (fun s => key s = B) := by
      simp [bucketSort, List.range_succ, List.flatMap_append]
    rw [hsplit]
    have h1 : (strings.filter (fun s => key s < B + 1)).filter (fun s => key s < B) =
        strings.filter (fun s => key s < B) := by
      rw [List.filter_filter]
      apply List.filter_congr
      intro s _
      by_cases h : key s < B
      · have : key s < B + 1 := by omega
        simp [h, this]
      · simp [h]
    have h2 : (strings.filter (fun s => key s < B + 1)).filter (fun s => !decide (key s < B)) =
        strings.filter (fun s => key s = B) := by
      rw [List.filter_filter]
      apply List.filter_congr
      intro s _
      by_cases h : key s = B
      · simp [h]
      · by_cases h2 : key s < B
        · simp [h, h2]
        · have : ¬ key s < B + 1 := by omega
          simp [h, this]
    have h3 := List.filter_append_perm (fun s => decide (key s < B))
      (strings.filter (fun s => key s < B + 1))
    rw [h1, h2] at h3
    exact (List.Perm.append_right _ ih).trans h3

theorem bucketSort_perm (key : Suffix → Nat) (strings : List Suffix) (B : Nat)
    (hk : ∀ s ∈ strings, key s < B) : (bucketSort key B strings).Perm strings := by
  have h := bucketSort_perm_filter key strings B
  have hf : strings.filter (fun s => key s < B) = strings := by
    rw [List.filter_eq_self]
    intro s hs
    simpa using hk s hs
  rwa [hf] at h

theorem bucketSort_sorted (key : Suffix → Nat) (strings : List Suffix) (B : Nat) :
    (bucketSort key B strings).Pairwise (fun s t => key s ≤ key t) := by
  unfold bucketSort
  rw [List.pairwise_flatMap]
  constructor
  · intro b _
    apply List.pairwise_of_forall_mem_list
    intro s hs t ht
    simp only [List.mem_filter, decide_eq_true_eq] at hs ht
    omega
  · apply List.Pairwise.imp _ (List.pairwise_lt_range B)
    intro b c hbc s hs t ht
    simp only [List.mem_filter, decide_eq_true_eq] at hs ht
    omega

theorem countingSort_spec (Index : Fin 2) (strings : List Suffix) (B : Nat)
    (hk : ∀ s ∈ strings, getEntry Index s.entry < B) :
    countingSort Index strings (List.replicate B []) =
      .ok (bucketSort (fun s => getEntry Index s.entry) B strings, List.replicate B []) := by
  obtain ⟨b1, hb1, hlen, hget⟩ := distribute_spec Index strings (List.replicate B [])
    (by simpa using hk)
  rw [List.length_replicate] at hlen
  have hb1eq : b1 = (List.range B).map
      (fun b => strings.filter (fun s => getEntry Index s.entry = b)) := by
    apply List.ext_getElem
    · simp [hlen]
    · intro b hb hb2
      have h := hget b
      rw [List.getD_eq_getElem _ _ hb] at h
      rw [h]
      have hbB : b < B := by omega
      simp [List.getD_eq_getElem?_getD, List.getElem?_replicate, hbB]
  have hflat : b1.flatten = bucketSort (fun s => getEntry Index s.entry) B strings := by
    rw [hb1eq]; rfl
  have hlenflat : b1.flatten.length = strings.length := by
    rw [hflat]; exact (bucketSort_perm _ strings B hk).length_eq
  have hg := gather_spec b1 [] strings (by omega)
  simp only [List.nil_append, List.length_nil] at hg
  simp only [countingSort, hb1, bind_ok, hg, hlen]
  rw [hlenflat, List.drop_length, List.append_nil, hflat]

/-! ## Radix sort -/

theorem radixSort_spec (strings : List Suffix)
    (h0 : ∀ s ∈ strings, s.entry.1 < strings.length)
    (h1 : ∀ s ∈ strings, s.entry.2 < strings.length) :
    radixSort strings = .ok (radixSorted strings) := by
  have hk1 : ∀ s ∈ strings, getEntry 1 s.entry < strings.length := by
    intro s hs; simpa [getEntry] using h1 s hs
  have hp := bucketSort_perm (fun s => getEntry 1 s.entry) strings strings.length hk1
  have hk0 : ∀ s ∈ bucketSort (fun s => getEntry 1 s.entry) strings.length strings,
      getEntry 0 s.entry < strings.length := by
    intro s hs; simpa [getEntry] using h0 s (hp.mem_iff.mp hs)
  simp only [radixSort, countingSort_spec 1 strings strings.length hk1, bind_ok,
    countingSort_spec 0 _ strings.length hk0]
  rfl

theorem radixSorted_perm (strings : List Suffix)
    (h0 : ∀ s ∈ strings, s.entry.1 < strings.length)
    (h1 : ∀ s ∈ strings, s.entry.2 < strings.length) :
    (radixSorted strings).Perm strings := by
  have hp := bucketSort_perm (fun s => getEntry 1 s.entry) strings strings.length
    (by intro s hs; simpa [getEntry] using h1 s hs)
  exact (bucketSort_perm (fun s => getEntry 0 s.entry) _ strings.length
    (by intro s hs; simpa [getEntry] using h0 s (hp.mem_iff.mp hs))).trans hp

theorem radixSorted_sorted (strings : List Suffix) :
    (radixSorted strings).Pairwise (fun s t => lexLE s.entry t.entry) := by
  unfold radixSorted bucketSort
  rw [List.pairwise_flatMap]
  constructor
  · intro a _
    have hs := (bucketSort_sorted (fun s => getEntry 1 s.entry) strings strings.length).filter
      (fun s => decide (getEntry 0 s.entry = a))
    refine List.Pairwise.imp_of_mem ?_ hs
    intro s t hs ht hst
    simp only [List.mem_filter, decide_eq_true_eq, getEntry] at hs ht hst
    simp only [Fin.isValue, ↓reduceIte, one_ne_zero] at hs ht hst
    right
    exact ⟨by omega, hst⟩
  · apply List.Pairwise.imp _ (List.pairwise_lt_range strings.length)
    intro a c hac s hs t ht
    simp only [List.mem_filter, decide_eq_true_eq, getEntry, ↓reduceIte] at hs ht
    left
    omega

/-! ## Rank recomputation -/

theorem lexLT_irrefl (a : Nat × Nat) : ¬ lexLT a a := by
  unfold lexLT; omega

theorem lexLT_of_lexLE_of_ne {a b : Nat × Nat} (h : lexLE a b) (hne : a ≠ b) : lexLT a b := by
  have : a.1 ≠ b.1 ∨ a.2 ≠ b.2 := by
    by_contra hc
    push_neg at hc
    exact hne (Prod.ext hc.1 hc.2)
  unfold lexLE at h; unfold lexLT; omega

theorem lexLT_of_lexLT_of_lexLE {a b c : Nat × Nat} (h1 : lexLT a b) (h2 : lexLE b c) :
    lexLT a c := by
  unfold lexLE at h2; unfold lexLT at h1 ⊢; omega

theorem not_lexLT_of_lexLE {a b : Nat × Nat} (h : lexLE a b) : ¬ lexLT b a := by
  unfold lexLE at h; unfold lexLT; omega

theorem recompute_cons (s : Suffix) (tail : List Suffix) (index : Nat) (result : List Nat) :
    recompute (s :: tail) index result =
      (writeAt result s.index index >>= recompute tail (nextIndex s index tail)) := by
  cases tail with
  | nil =>
    simp only [recompute, nextIndex]
    cases writeAt result s.index index <;> rfl
  | cons t rest => rfl

theorem recompute_spec (L : List Suffix) :
    ∀ (idx : Nat) (result : List Nat),
      L.Pairwise (fun s t => lexLE s.entry t.entry) →
      (L.map Suffix.index).Nodup →
      (∀ s ∈ L, s.index < result.length) →
      ∃ r1, recompute L idx result = .ok r1 ∧ r1.length = result.length ∧
        (∀ i, (∀ s ∈ L, s.index ≠ i) → r1.getD i 0 = result.getD i 0) ∧
        (∀ s ∈ L, idx ≤ r1.getD s.index 0 ∧ r1.getD s.index 0 < idx + L.length) ∧
        (∀ s ∈ L, ∀ t ∈ L,
          (r1.getD s.index 0 < r1.getD t.index 0 ↔ lexLT s.entry t.entry)) ∧
        (∀ s, L.head? = some s → r1.getD s.index 0 = idx) := by
  induction L with
  | nil =>
    intro idx result _ _ _
    exact ⟨result, rfl, rfl, fun _ _ => rfl, by simp, by simp, by simp⟩
  | cons s tail ih =>
    intro idx result hsorted hnodup hlt
    rw [List.pairwise_cons] at hsorted
    rw [List.map_cons, List.nodup_cons] at hnodup
    have hs : s.index < result.length := hlt s (by simp)
    have hsnot : ∀ u ∈ tail, u.index ≠ s.index := by
      intro u hu heq
      exact hnodup.1 (heq ▸ List.mem_map_of_mem Suffix.index hu)
    obtain ⟨r1, hr1, hlen, hsame, hbound, hcmp, hhead⟩ :=
      ih (nextIndex s idx tail) (result.set s.index idx) hsorted.2 hnodup.2
        (by intro u hu; simpa using hlt u (by simp [hu]))
    have hsval : r1.getD s.index 0 = idx := by
      rw [hsame s.index hsnot]
      simp [List.getD_eq_getElem?_getD, List.getElem?_set, hs]
    have hnext : idx ≤ nextIndex s idx tail ∧ nextIndex s idx tail ≤ idx + 1 := by
      cases tail with
      | nil => simp [nextIndex]
      | cons t rest =>
        simp only [nextIndex]
        split <;> omega
    have hgt : ∀ u ∈ tail, (idx < r1.getD u.index 0 ↔ lexLT s.entry u.entry) := by
      intro u hu
      cases tail with
      | nil => simp at hu
      | cons t rest =>
        have ht : t ∈ t :: rest := by simp
        have htval := hhead t rfl
        by_cases hst : s.entry = t.entry
        · have hn : nextIndex s idx (t :: rest) = idx := by simp [nextIndex, hst]
          rw [hn] at htval
          rw [hst, ← hcmp t ht u hu, htval]
        · have hn : nextIndex s idx (t :: rest) = idx + 1 := by simp [nextIndex, hst]
          have hb := (hbound u hu).1
          rw [hn] at hb
          have hlt1 : lexLT s.entry t.entry := lexLT_of_lexLE_of_ne (hsorted.1 t ht) hst
          have hle : lexLE t.entry u.entry := by
            rcases List.mem_cons.mp hu with h | h
            · subst h; unfold lexLE; omega
            · exact (List.pairwise_cons.mp hsorted.2).1 u h
          exact ⟨fun _ => lexLT_of_lexLT_of_lexLE hlt1 hle, fun _ => by omega⟩
    refine ⟨r1, ?_, by simpa using hlen, ?_, ?_, ?_, ?_⟩
    · rw [recompute_cons, writeAt_of_lt _ _ _ hs, bind_ok]; exact hr1
    · intro i hi
      rw [hsame i (fun u hu => hi u (by simp [hu]))]
      have : s.index ≠ i := hi s (by simp)
      simp [List.getD_eq_getElem?_getD, List.getElem?_set, this]
    · intro u hu
      rcases List.mem_cons.mp hu with h | h
      · subst h; rw [hsval]; simp
      · have := hbound u h
        simp only [List.length_cons]
        omega
    · intro u hu v hv
      rcases List.mem_cons.mp hu with h | h <;> rcases List.mem_cons.mp hv with h' | h'
      · subst h; subst h'
        exact ⟨fun hc => absurd hc (Nat.lt_irrefl _), fun hc => absurd hc (lexLT_irrefl _)⟩
      · subst h; rw [hsval]; exact hgt v h'
      · subst h'; rw [hsval]
        have := (hbound u h).1
        exact ⟨fun hc => by omega, fun hc => absurd hc (not_lexLT_of_lexLE (hsorted.1 u h))⟩
      · exact hcmp u h v h'
    · intro u hu
      simp only [List.head?_cons, Option.some.injEq] at hu
      subst hu; exact hsval

/-! ## One doubling iteration -/

theorem buildStrings_length (result : List Nat) (halfSize : Nat) :
    (buildStrings result halfSize).length = result.length := by
  simp [buildStrings]

theorem mem_buildStrings (result : List Nat) (halfSize : Nat) (s : Suffix) :
    s ∈ buildStrings result halfSize ↔ ∃ i, i < result.length ∧ makeSuffix result halfSize i = s := by
  simp [buildStrings]

theorem buildStrings_index (result : List Nat) (halfSize : Nat) :
    (buildStrings result halfSize).map Suffix.index = List.range result.length := by
  simp only [buildStrings, List.map_map]
  conv_rhs => rw [← List.map_id (List.range result.length)]
  apply List.map_congr_left
  intro i _
  rfl

theorem iteration_spec (result : List Nat) (halfSize : Nat)
    (hpos : 0 < result.length)
    (hrange : ∀ p, p < result.length → result.getD p 0 < result.length) :
    ∃ r1, iteration result halfSize = .ok r1 ∧ r1.length = result.length ∧
      (∀ p, p < result.length → r1.getD p 0 < result.length) ∧
      (∀ p q, p < result.length → q < result.length →
        (r1.getD p 0 < r1.getD q 0 ↔
          lexLT (makeSuffix result halfSize p).entry (makeSuffix result halfSize q).entry)) := by
  have hlenS := buildStrings_length result halfSize
  have h0 : ∀ s ∈ buildStrings result halfSize,
      s.entry.1 < (buildStrings result halfSize).length := by
    intro s hs
    obtain ⟨i, hi, rfl⟩ := (mem_buildStrings _ _ _).mp hs
    rw [hlenS]
    exact hrange i hi
  have h1 : ∀ s ∈ buildStrings result halfSize,
      s.entry.2 < (buildStrings result halfSize).length := by
    intro s hs
    obtain ⟨i, hi, rfl⟩ := (mem_buildStrings _ _ _).mp hs
    rw [hlenS]
    simp only [makeSuffix]
    split
    · rename_i h; exact hrange _ h
    · exact hpos
  have hperm := radixSorted_perm _ h0 h1
  have hsorted := radixSorted_sorted (buildStrings result halfSize)
  have hnodup : ((radixSorted (buildStrings result halfSize)).map Suffix.index).Nodup := by
    rw [(hperm.map Suffix.index).nodup_iff, buildStrings_index]
    exact List.nodup_range _
  have hidx : ∀ s ∈ radixSorted (buildStrings result halfSize), s.index < result.length := by
    intro s hs
    obtain ⟨i, hi, rfl⟩ := (mem_buildStrings _ _ _).mp (hperm.mem_iff.mp hs)
    exact hi
  obtain ⟨r1, hr1, hlen, _, hbound, hcmp, _⟩ :=
    recompute_spec _ 0 result hsorted hnodup hidx
  have hmem : ∀ p, p < result.length →
      makeSuffix result halfSize p ∈ radixSorted (buildStrings result halfSize) := by
    intro p hp
    exact hperm.mem_iff.mpr ((mem_buildStrings _ _ _).mpr ⟨p, hp, rfl⟩)
  refine ⟨r1, ?_, hlen, ?_, ?_⟩
  · simp only [iteration, radixSort_spec _ h0 h1, bind_ok]
    exact hr1
  · intro p hp
    have := (hbound _ (hmem p hp)).2
    rw [hperm.length_eq, hlenS] at this
    simpa [makeSuffix] using this
  · intro p q hp hq
    exact hcmp _ (hmem p hp) _ (hmem q hq)

/-! ## Suffixes with virtual trailing zeros -/

theorem prefEQ_symm {text : List Nat} {w p q : Nat} (h : prefEQ text w p q) :
    prefEQ text w q p := fun l hl => (h l hl).symm

theorem not_prefLT_of_prefEQ {text : List Nat} {w p q : Nat} (h : prefEQ text w p q) :
    ¬ prefLT text w p q := by
  rintro ⟨k, hk, _, hlt⟩
  have := h k hk
  omega

theorem prefEQ_of_not_prefLT {text : List Nat} {w p q : Nat}
    (h1 : ¬ prefLT text w p q) (h2 : ¬ prefLT text w q p) : prefEQ text w p q := by
  intro l
  induction l using Nat.strong_induction_on with
  | _ l ih =>
    intro hl
    by_contra hne
    rcases Nat.lt_or_gt_of_ne hne with h | h
    · exact h1 ⟨l, hl, fun l1 hl1 => ih l1 hl1 (by omega), h⟩
    · exact h2 ⟨l, hl, fun l1 hl1 => (ih l1 hl1 (by omega)).symm, h⟩

theorem prefLT_asymm {text : List Nat} {w p q : Nat} (h1 : prefLT text w p q) :
    ¬ prefLT text w q p := by
  obtain ⟨k1, _, heq1, hlt1⟩ := h1
  rintro ⟨k2, _, heq2, hlt2⟩
  rcases Nat.lt_trichotomy k1 k2 with h | h | h
  · have := heq2 k1 h; omega
  · subst h; omega
  · have := heq1 k2 h; omega

theorem prefLT_double (text : List Nat) (w p q : Nat) :
    prefLT text (w * 2) p q ↔
      prefLT text w p q ∨ (prefEQ text w p q ∧ prefLT text w (p + w) (q + w)) := by
  constructor
  · rintro ⟨k, hk, heq, hlt⟩
    by_cases hkw : k < w
    · exact Or.inl ⟨k, hkw, heq, hlt⟩
    · refine Or.inr ⟨fun l hl => heq l (by omega), k - w, by omega, ?_, ?_⟩
      · intro l hl
        have := heq (w + l) (by omega)
        simpa [Nat.add_assoc] using this
      · have e1 : p + w + (k - w) = p + k := by omega
        have e2 : q + w + (k - w) = q + k := by omega
        rw [e1, e2]; exact hlt
  · rintro (⟨k, hk, heq, hlt⟩ | ⟨he, k, hk, heq, hlt⟩)
    · exact ⟨k, by omega, heq, hlt⟩
    · refine ⟨w + k, by omega, ?_, by simpa [Nat.add_assoc] using hlt⟩
      intro l hl
      by_cases hlw : l < w
      · exact he l hlw
      · have := heq (l - w) (by omega)
        have e1 : p + w + (l - w) = p + l := by omega
        have e2 : q + w + (l - w) = q + l := by omega
        rwa [e1, e2] at this

theorem sentinel_sep {text : List Nat} (hs : Sentinel text) {w p q : Nat}
    (hpq : p < q) (hq : q < text.length) (he : prefEQ text w p q) :
    q + w < text.length := by
  by_contra hc
  have h1 := he (text.length - 1 - q) (by omega)
  have e : q + (text.length - 1 - q) = text.length - 1 := by omega
  rw [e] at h1
  have h2 := hs (p + (text.length - 1 - q)) (by omega)
  unfold chr at h1
  omega

/-! ## The doubling invariant -/

theorem RankInv.eq_iff {text : List Nat} {w : Nat} {r : List Nat} (h : RankInv text w r)
    {p q : Nat} (hp : p < text.length) (hq : q < text.length) :
    r.getD p 0 = r.getD q 0 ↔ prefEQ text w p q := by
  constructor
  · intro he
    apply prefEQ_of_not_prefLT
    · rw [← h.2.2 p q hp hq]; omega
    · rw [← h.2.2 q p hq hp]; omega
  · intro he
    have h1 := not_prefLT_of_prefEQ he
    have h2 := not_prefLT_of_prefEQ (prefEQ_symm he)
    rw [← h.2.2 p q hp hq] at h1
    rw [← h.2.2 q p hq hp] at h2
    omega

theorem rankInv_init (text : List Nat) (hr : InRange text) : RankInv text 1 text := by
  refine ⟨rfl, ?_, ?_⟩
  · intro p hp
    rw [List.getD_eq_getElem _ _ hp]
    exact hr _ (List.getElem_mem hp)
  · intro p q _ _
    constructor
    · intro h
      exact ⟨0, by omega, fun l hl => by omega, by simpa [chr] using h⟩
    · rintro ⟨k, hk, _, hlt⟩
      have : k = 0 := by omega
      subst this
      simpa [chr] using hlt

theorem key_order {text : List Nat} {w : Nat} {r : List Nat} (h : RankInv text w r)
    (hs : Sentinel text) {p q : Nat} (hp : p < text.length) (hq : q < text.length) :
    lexLT (makeSuffix r w p).entry (makeSuffix r w q).entry ↔ prefLT text (w * 2) p q := by
  rw [prefLT_double]
  unfold lexLT
  simp only [makeSuffix, h.1]
  rw [h.2.2 p q hp hq, h.eq_iff hp hq]
  apply or_congr_right
  apply and_congr_right
  intro he
  rcases Nat.lt_trichotomy p q with hpq | hpq | hpq
  · have hq2 := sentinel_sep hs hpq hq he
    have hp2 : p + w < text.length := by omega
    simp only [hq2, hp2, ↓reduceIte]
    exact h.2.2 _ _ hp2 hq2
  · subst hpq
    constructor
    · intro hc; omega
    · intro hc; exact absurd hc (prefLT_asymm hc)
  · have hp2 := sentinel_sep hs hpq hp (prefEQ_symm he)
    have hq2 : q + w < text.length := by omega
    simp only [hq2, hp2, ↓reduceIte]
    exact h.2.2 _ _ hp2 hq2

theorem iteration_inv {text : List Nat} {w : Nat} {r : List Nat} (h : RankInv text w r)
    (hs : Sentinel text) (hpos : 0 < text.length) :
    ∃ r1, iteration r w = .ok r1 ∧ RankInv text (w * 2) r1 := by
  obtain ⟨r1, hr1, hlen, hbound, hcmp⟩ := iteration_spec r w (by rw [h.1]; exact hpos)
    (by rw [h.1]; exact h.2.1)
  rw [h.1] at hlen hbound hcmp
  refine ⟨r1, hr1, hlen, hbound, ?_⟩
  intro p q hp hq
  rw [hcmp p q hp hq, key_order h hs hp hq]

theorem doublingLoop_inv {text : List Nat} (hs : Sentinel text) (hpos : 0 < text.length) :
    ∀ (fuel w : Nat) (r : List Nat), RankInv text w r → text.length ≤ w * 2 ^ fuel →
      ∃ r1 w1, doublingLoop (fuel + 1) w r = .ok r1 ∧ RankInv text w1 r1 ∧
        text.length ≤ w1 := by
  intro fuel
  induction fuel with
  | zero =>
    intro w r h hw
    refine ⟨r, w, ?_, h, by simpa using hw⟩
    have : ¬ w < r.length := by rw [h.1]; simp at hw; omega
    simp [doublingLoop, this]
  | succ fuel ih =>
    intro w r h hw
    by_cases hlt : w < r.length
    · obtain ⟨r1, hr1, hinv⟩ := iteration_inv h hs hpos
      obtain ⟨r2, w2, hr2, hinv2, hw2⟩ := ih (w * 2) r1 hinv
        (by rw [Nat.pow_succ] at hw; calc text.length ≤ w * (2 ^ fuel * 2) := hw
              _ = w * 2 * 2 ^ fuel := by ring)
      refine ⟨r2, w2, ?_, hinv2, hw2⟩
      rw [doublingLoop, if_pos hlt, hr1, bind_ok]
      exact hr2
    · refine ⟨r, w, ?_, h, by rw [← h.1]; omega⟩
      rw [doublingLoop, if_neg hlt]

/-! ## Inversion and the result of `manberMyers` -/

theorem invertLoop_spec (rest : List Nat) :
    ∀ (i : Nat) (sa : List Nat), rest.Nodup → (∀ v ∈ rest, v < sa.length) →
      ∃ sa1, invertLoop rest i sa = .ok sa1 ∧ sa1.length = sa.length ∧
        (∀ k, k < rest.length → sa1.getD (rest.getD k 0) 0 = i + k) ∧
        (∀ v, v ∉ rest → sa1.getD v 0 = sa.getD v 0) := by
  induction rest with
  | nil =>
    intro i sa _ _
    exact ⟨sa, rfl, rfl, by simp, fun _ _ => rfl⟩
  | cons r rest ih =>
    intro i sa hnd hlt
    rw [List.nodup_cons] at hnd
    have hr : r < sa.length := hlt r (by simp)
    obtain ⟨sa1, hsa1, hlen, hval, hsame⟩ := ih (i + 1) (sa.set r i) hnd.2
      (by intro v hv; simpa using hlt v (by simp [hv]))
    refine ⟨sa1, ?_, by simpa using hlen, ?_, ?_⟩
    · rw [invertLoop, writeAt_of_lt _ _ _ hr, bind_ok]; exact hsa1
    · intro k hk
      cases k with
      | zero =>
        simp only [List.getD_cons_zero, Nat.add_zero]
        rw [hsame r hnd.1]
        simp [List.getD_eq_getElem?_getD, List.getElem?_set, hr]
      | succ k =>
        simp only [List.getD_cons_succ]
        rw [hval k (by simpa using hk)]
        omega
    · intro v hv
      rw [List.mem_cons, not_or] at hv
      rw [hsame v hv.2]
      have : r ≠ v := fun h => hv.1 h.symm
      simp [List.getD_eq_getElem?_getD, List.getElem?_set, this]

theorem perm_range_of_injective (r : List Nat)
    (hb : ∀ p, p < r.length → r.getD p 0 < r.length)
    (hinj : ∀ p q, p < r.length → q < r.length → r.getD p 0 = r.getD q 0 → p = q) :
    r.Perm (List.range r.length) := by
  have hnd : r.Nodup := by
    rw [List.Nodup, List.pairwise_iff_getElem]
    intro i j hi hj hij he
    have := hinj i j hi hj (by rw [List.getD_eq_getElem _ _ hi, List.getD_eq_getElem _ _ hj]; exact he)
    omega
  have hsub : r ⊆ List.range r.length := by
    intro x hx
    obtain ⟨n, hn, rfl⟩ := List.mem_iff_getElem.mp hx
    rw [List.mem_range, ← List.getD_eq_getElem r 0 hn]
    exact hb n hn
  exact (hnd.subperm hsub).perm_of_length_le (by simp)

theorem prefLT_iff_sufLT (text : List Nat) (w p q : Nat) (hw : text.length ≤ w) :
    prefLT text w p q ↔ sufLT text p q := by
  constructor
  · rintro ⟨k, _, heq, hlt⟩
    exact ⟨k, heq, hlt⟩
  · rintro ⟨k, heq, hlt⟩
    refine ⟨k, ?_, heq, hlt⟩
    by_contra hk
    have : chr text (q + k) = 0 := by
      unfold chr
      rw [List.getD_eq_default]
      omega
    omega

/-- What `manberMyers` computes on a rank-encoded text with a sentinel: the
loop leaves a rank array that orders positions as their suffixes are ordered,
and the returned array is its inverse. -/
theorem manberMyers_spec (text : List Nat) (hpos : 0 < text.length) (hr : InRange text)
    (hs : Sentinel text) :
    ∃ r sa, doublingLoop (text.length + 1) 1 text = .ok r ∧ manberMyers text = .ok sa ∧
      r.length = text.length ∧ sa.length = text.length ∧
      r.Perm (List.range text.length) ∧
      (∀ p q, p < text.length → q < text.length →
        (r.getD p 0 < r.getD q 0 ↔ sufLT text p q)) ∧
      (∀ p, p < text.length → sa.getD (r.getD p 0) 0 = p) := by
  obtain ⟨r, w, hloop, hinv, hw⟩ := doublingLoop_inv hs hpos text.length 1 text
    (rankInv_init text hr) (by rw [Nat.one_mul]; exact Nat.le_of_lt (Nat.lt_two_pow _))
  have hinj : ∀ p q, p < r.length → q < r.length → r.getD p 0 = r.getD q 0 → p = q := by
    intro p q hp hq he
    rw [hinv.1] at hp hq
    have heq := (hinv.eq_iff hp hq).mp he
    rcases Nat.lt_trichotomy p q with h | h | h
    · have := sentinel_sep hs h hq heq; omega
    · exact h
    · have := sentinel_sep hs h hp (prefEQ_symm heq); omega
  have hperm := perm_range_of_injective r (by rw [hinv.1]; exact hinv.2.1) hinj
  obtain ⟨sa, hsa, hlen, hval, _⟩ := invertLoop_spec r 0 (List.replicate r.length 0)
    (hperm.nodup_iff.mpr (List.nodup_range _))
    (by
      intro v hv
      have := hperm.mem_iff.mp hv
      simpa using this)
  refine ⟨r, sa, hloop, ?_, hinv.1, ?_, hinv.1 ▸ hperm, ?_, ?_⟩
  · simp only [manberMyers, hloop, bind_ok]; exact hsa
  · rw [hlen, List.length_replicate, hinv.1]
  · intro p q hp hq
    rw [hinv.2.2 p q hp hq, prefLT_iff_sufLT text w p q hw]
  · intro p hp
    rw [hval p (by rw [hinv.1]; exact hp)]
    omega

/-! ## Runs on arbitrary input: lengths and index ranges -/

theorem writeAt_length {α : Type} {v v1 : List α} {i : Nat} {x : α}
    (h : writeAt v i x = .ok v1) : v1.length = v.length := by
  unfold writeAt at h
  split at h
  · cases h; simp
  · cases h

theorem recompute_length (L : List Suffix) :
    ∀ (idx : Nat) (result r1 : List Nat), recompute L idx result = .ok r1 →
      r1.length = result.length := by
  induction L with
  | nil => intro idx result r1 h; cases h; rfl
  | cons s tail ih =>
    intro idx result r1 h
    rw [recompute_cons] at h
    cases hw : writeAt result s.index idx with
    | error e => rw [hw] at h; cases h
    | ok v =>
      rw [hw, bind_ok] at h
      rw [ih _ _ _ h, writeAt_length hw]

theorem iteration_length {result r1 : List Nat} {halfSize : Nat}
    (h : iteration result halfSize = .ok r1) : r1.length = result.length := by
  unfold iteration at h
  cases hs : radixSort (buildStrings result halfSize) with
  | error e => rw [hs] at h; cases h
  | ok L =>
    rw [hs, bind_ok] at h
    exact recompute_length L 0 result r1 h

theorem doublingLoop_length (fuel : Nat) :
    ∀ (w : Nat) (r r1 : List Nat), doublingLoop fuel w r = .ok r1 → r1.length = r.length := by
  induction fuel with
  | zero => intro w r r1 h; cases h
  | succ fuel ih =>
    intro w r r1 h
    rw [doublingLoop] at h
    split at h
    · cases hi : iteration r w with
      | error e => rw [hi] at h; cases h
      | ok r2 =>
        rw [hi, bind_ok] at h
        rw [ih _ _ _ h, iteration_length hi]
    · cases h; rfl

theorem invertLoop_length (rest : List Nat) :
    ∀ (i : Nat) (sa sa1 : List Nat), invertLoop rest i sa = .ok sa1 → sa1.length = sa.length := by
  induction rest with
  | nil => intro i sa sa1 h; cases h; rfl
  | cons r rest ih =>
    intro i sa sa1 h
    rw [invertLoop] at h
    cases hw : writeAt sa r i with
    | error e => rw [hw] at h; cases h
    | ok v =>
      rw [hw, bind_ok] at h
      rw [ih _ _ _ h, writeAt_length hw]

theorem manberMyers_length {text sa : List Nat} (h : manberMyers text = .ok sa) :
    sa.length = text.length := by
  unfold manberMyers at h
  cases hl : doublingLoop (text.length + 1) 1 text with
  | error e => rw [hl] at h; cases h
  | ok r =>
    rw [hl, bind_ok] at h
    rw [invertLoop_length _ _ _ _ h, List.length_replicate, doublingLoop_length _ _ _ _ hl]

theorem invertLoop_ok (rest : List Nat) :
    ∀ (i : Nat) (sa : List Nat), (∀ v ∈ rest, v < sa.length) →
      ∃ sa1, invertLoop rest i sa = .ok sa1 := by
  induction rest with
  | nil => intro i sa _; exact ⟨sa, rfl⟩
  | cons r rest ih =>
    intro i sa hlt
    obtain ⟨sa1, h⟩ := ih (i + 1) (sa.set r i) (by intro v hv; simpa using hlt v (by simp [hv]))
    exact ⟨sa1, by rw [invertLoop, writeAt_of_lt _ _ _ (hlt r (by simp)), bind_ok]; exact h⟩

theorem doublingLoop_range (m : Nat) :
    ∀ (fuel w : Nat) (r : List Nat), r.length = m → (∀ p, p < m → r.getD p 0 < m) →
      m ≤ w * 2 ^ fuel →
      ∃ r1, doublingLoop (fuel + 1) w r = .ok r1 ∧ r1.length = m ∧
        ∀ p, p < m → r1.getD p 0 < m := by
  intro fuel
  induction fuel with
  | zero =>
    intro w r hlen hb hw
    have : ¬ w < r.length := by rw [hlen]; simp at hw; omega
    exact ⟨r, by simp [doublingLoop, this], hlen, hb⟩
  | succ fuel ih =>
    intro w r hlen hb hw
    by_cases hlt : w < r.length
    · obtain ⟨r1, hr1, hlen1, hb1, _⟩ := iteration_spec r w (by omega) (by rw [hlen]; exact hb)
      rw [hlen] at hlen1 hb1
      obtain ⟨r2, hr2, hlen2, hb2⟩ := ih (w * 2) r1 hlen1 hb1
        (by rw [Nat.pow_succ] at hw; calc m ≤ w * (2 ^ fuel * 2) := hw
              _ = w * 2 * 2 ^ fuel := by ring)
      exact ⟨r2, by rw [doublingLoop, if_pos hlt, hr1, bind_ok]; exact hr2, hlen2, hb2⟩
    · exact ⟨r, by rw [doublingLoop, if_neg hlt], hlen, hb⟩

theorem inRange_getD {text : List Nat} (hr : InRange text) :
    ∀ p, p < text.length → text.getD p 0 < text.length := by
  intro p hp
  rw [List.getD_eq_getElem _ _ hp]
  exact hr _ (List.getElem_mem hp)

/-- On a text whose elements are all below its length no access is out of
range: the loop ends with ranks below the length and `manberMyers` returns. -/
theorem manberMyers_total (text : List Nat) (hr : InRange text) :
    ∃ r sa, doublingLoop (text.length + 1) 1 text = .ok r ∧ r.length = text.length ∧
      (∀ p, p < text.length → r.getD p 0 < text.length) ∧ manberMyers text = .ok sa := by
  obtain ⟨r, hloop, hlen, hb⟩ := doublingLoop_range text.length text.length 1 text rfl
    (inRange_getD hr) (by rw [Nat.one_mul]; exact Nat.le_of_lt (Nat.lt_two_pow _))
  obtain ⟨sa, hsa⟩ := invertLoop_ok r 0 (List.replicate r.length 0) (by
    intro v hv
    obtain ⟨n, hn, rfl⟩ := List.mem_iff_getElem.mp hv
    rw [List.length_replicate, ← List.getD_eq_getElem r 0 hn, hlen]
    exact hb n (by omega))
  exact ⟨r, sa, hloop, hlen, hb, by simp only [manberMyers, hloop, bind_ok]; exact hsa⟩

theorem reaches_range {text : List Nat} (hr : InRange text) {w : Nat} {r : List Nat}
    (h : Reaches text w r) :
    r.length = text.length ∧ ∀ p, p < text.length → r.getD p 0 < text.length := by
  induction h with
  | init => exact ⟨rfl, inRange_getD hr⟩
  | @step w0 r0 r1 _ hlt hit ih =>
    obtain ⟨r2, hr2, hlen2, hb2, _⟩ := iteration_spec r0 w0 (by omega) (by rw [ih.1]; exact ih.2)
    rw [hit] at hr2
    cases hr2
    rw [ih.1] at hlen2 hb2
    exact ⟨hlen2, hb2⟩

/-! ## The fuel is never used up -/

theorem readAt_fault {α : Type} {v : List α} {i : Nat} {e : Fault}
    (h : readAt v i = .error e) : e = .outOfRange := by
  unfold readAt at h
  split at h <;> cases h
  rfl

theorem writeAt_fault {α : Type} {v : List α} {i : Nat} {x : α} {e : Fault}
    (h : writeAt v i x = .error e) : e = .outOfRange := by
  unfold writeAt at h
  split at h <;> cases h
  rfl

theorem distribute_fault (Index : Fin 2) (strings : List Suffix) :
    ∀ (buckets : List (List Suffix)) (e : Fault),
      distribute Index strings buckets = .error e → e = .outOfRange := by
  induction strings with
  | nil => intro buckets e h; cases h
  | cons str rest ih =>
    intro buckets e h
    rw [distribute] at h
    cases hr : readAt buckets (getEntry Index str.entry) with
    | error e1 => rw [hr] at h; cases h; exact readAt_fault hr
    | ok bucket => rw [hr, bind_ok] at h; exact ih _ _ h

theorem gatherBucket_fault (bucket : List Suffix) :
    ∀ (strings : List Suffix) (i : Nat) (e : Fault),
      gatherBucket bucket strings i = .error e → e = .outOfRange := by
  induction bucket with
  | nil => intro strings i e h; cases h
  | cons entry rest ih =>
    intro strings i e h
    rw [gatherBucket] at h
    cases hw : writeAt strings i entry with
    | error e1 => rw [hw] at h; cases h; exact writeAt_fault hw
    | ok v => rw [hw, bind_ok] at h; exact ih _ _ _ h

theorem gather_fault (buckets : List (List Suffix)) :
    ∀ (strings : List Suffix) (i : Nat) (e : Fault),
      gather buckets strings i = .error e → e = .outOfRange := by
  induction buckets with
  | nil => intro strings i e h; cases h
  | cons bucket rest ih =>
    intro strings i e h
    rw [gather] at h
    cases hb : gatherBucket bucket strings i with
    | error e1 => rw [hb] at h; cases h; exact gatherBucket_fault _ _ _ _ hb
    | ok p =>
      obtain ⟨s1, i1⟩ := p
      rw [hb, bind_ok] at h
      cases hg : gather rest s1 i1 with
      | error e1 => simp only [hg] at h; cases h; exact ih _ _ _ hg
      | ok q => simp only [hg, bind_ok] at h; cases h

theorem countingSort_fault (Index : Fin 2) (strings : List Suffix)
    (buckets : List (List Suffix)) (e : Fault)
    (h : countingSort Index strings buckets = .error e) : e = .outOfRange := by
  rw [countingSort] at h
  cases hd : distribute Index strings buckets with
  | error e1 => rw [hd] at h; cases h; exact distribute_fault _ _ _ _ hd
  | ok b1 => rw [hd, bind_ok] at h; exact gather_fault _ _ _ _ h

theorem radixSort_fault (strings : List Suffix) (e : Fault)
    (h : radixSort strings = .error e) : e = .outOfRange := by
  rw [radixSort] at h
  cases h1 : countingSort 1 strings (List.replicate strings.length []) with
  | error e1 => simp only [h1] at h; cases h; exact countingSort_fault _ _ _ _ h1
  | ok p =>
    obtain ⟨s1, b1⟩ := p
    simp only [h1, bind_ok] at h
    cases h2 : countingSort 0 s1 b1 with
    | error e1 => simp only [h2] at h; cases h; exact countingSort_fault _ _ _ _ h2
    | ok q => simp only [h2, bind_ok] at h; cases h

theorem recompute_fault (L : List Suffix) :
    ∀ (idx : Nat) (result : List Nat) (e : Fault),
      recompute L idx result = .error e → e = .outOfRange := by
  induction L with
  | nil => intro idx result e h; cases h
  | cons s tail ih =>
    intro idx result e h
    rw [recompute_cons] at h
    cases hw : writeAt result s.index idx with
    | error e1 => rw [hw] at h; cases h; exact writeAt_fault hw
    | ok v => rw [hw, bind_ok] at h; exact ih _ _ _ h

theorem iteration_fault (result : List Nat) (halfSize : Nat) (e : Fault)
    (h : iteration result halfSize = .error e) : e = .outOfRange := by
  rw [iteration] at h
  cases hs : radixSort (buildStrings result halfSize) with
  | error e1 => rw [hs] at h; cases h; exact radixSort_fault _ _ hs
  | ok L => rw [hs, bind_ok] at h; exact recompute_fault _ _ _ _ h

theorem doublingLoop_fault (f : Nat) :
    ∀ (w : Nat) (r : List Nat) (e : Fault), r.length ≤ w * 2 ^ f →
      doublingLoop (f + 1) w r = .error e → e = .outOfRange := by
  induction f with
  | zero =>
    intro w r e hw h
    have hn : ¬ w < r.length := by simp at hw; omega
    rw [doublingLoop, if_neg hn] at h
    cases h
  | succ f ih =>
    intro w r e hw h
    rw [doublingLoop] at h
    split at h
    · cases hi : iteration r w with
      | error e1 => rw [hi] at h; cases h; exact iteration_fault _ _ _ hi
      | ok r1 =>
        rw [hi, bind_ok] at h
        refine ih (w * 2) r1 e ?_ h
        rw [iteration_length hi, Nat.pow_succ] at *
        calc r.length ≤ w * (2 ^ f * 2) := hw
          _ = w * 2 * 2 ^ f := by ring
    · cases h

theorem invertLoop_fault (rest : List Nat) :
    ∀ (i : Nat) (sa : List Nat) (e : Fault),
      invertLoop rest i sa = .error e → e = .outOfRange := by
  induction rest with
  | nil => intro i sa e h; cases h
  | cons r rest ih =>
    intro i sa e h
    rw [invertLoop] at h
    cases hw : writeAt sa r i with
    | error e1 => rw [hw] at h; cases h; exact writeAt_fault hw
    | ok v => rw [hw, bind_ok] at h; exact ih _ _ _ h

/-- Whatever the text, a run of `manberMyers` that does not return ends in an
out-of-range access: the fuel passed to the doubling loop is never used up. -/
theorem manberMyers_fault (text : List Nat) (e : Fault)
    (h : manberMyers text = .error e) : e = .outOfRange := by
  rw [manberMyers] at h
  cases hl : doublingLoop (text.length + 1) 1 text with
  | error e1 =>
    rw [hl] at h; cases h
    exact doublingLoop_fault text.length 1 text _
      (by rw [Nat.one_mul]; exact Nat.le_of_lt (Nat.lt_two_pow _)) hl
  | ok r => rw [hl, bind_ok] at h; exact invertLoop_fault _ _ _ _ h

/-! ## The contract of `manberMyers` -/

theorem exists_rank_eq {r : List Nat} {m : Nat} (hlen : r.length = m)
    (hperm : r.Perm (List.range m)) {j : Nat} (hj : j < m) :
    ∃ p, p < m ∧ r.getD p 0 = j := by
  have hmem : j ∈ r := hperm.mem_iff.mpr (List.mem_range.mpr hj)
  obtain ⟨p, hp, he⟩ := List.mem_iff_getElem.mp hmem
  exact ⟨p, hlen ▸ hp, by rw [List.getD_eq_getElem _ _ hp]; exact he⟩

theorem chr_ones (n p : Nat) :
    chr (List.replicate n 1 ++ [0]) p = if p < n then 1 else 0 := by
  unfold chr
  by_cases hp : p < n
  · simp [List.getD_eq_getElem?_getD, List.getElem?_append_left, hp]
  · rw [if_neg hp]
    by_cases hpn : p = n
    · subst hpn
      simp [List.getD_eq_getElem?_getD, List.getElem?_append_right]
    · rw [List.getD_eq_default]
      simp; omega

theorem sufLT_ones (n p q : Nat) (hpq : p < q) (hq : q ≤ n) :
    sufLT (List.replicate n 1 ++ [0]) q p := by
  refine ⟨n - q, ?_, ?_⟩
  · intro l hl
    rw [chr_ones, chr_ones, if_pos (by omega), if_pos (by omega)]
  · rw [chr_ones, chr_ones, if_neg (by omega), if_pos (by omega)]
    exact Nat.zero_lt_one

/-- C1 (order property): on a rank-encoded text of length at least 1 whose last
element is strictly smaller than every other element, `manberMyers` returns an
array of the length of the text in which, for every `j` with `j + 1` below the
length, the suffix starting at entry `j` is lexicographically at most the
suffix starting at entry `j + 1`, suffixes being extended with zeros. -/
theorem manberMyers_order (text : List Nat) (hlen : 1 ≤ text.length) (hr : InRange text)
    (hs : Sentinel text) :
    ∃ sa, manberMyers text = .ok sa ∧ sa.length = text.length ∧
      ∀ j, j + 1 < text.length → sufLE text (sa.getD j 0) (sa.getD (j + 1) 0) := by
  obtain ⟨r, sa, _, hsa, hrlen, hsalen, hperm, hord, hinv⟩ := manberMyers_spec text hlen hr hs
  refine ⟨sa, hsa, hsalen, ?_⟩
  intro j hj
  obtain ⟨p, hp, hpj⟩ := exists_rank_eq hrlen hperm (show j < text.length by omega)
  obtain ⟨q, hq, hqj⟩ := exists_rank_eq hrlen hperm hj
  have e1 : sa.getD j 0 = p := by rw [← hpj]; exact hinv p hp
  have e2 : sa.getD (j + 1) 0 = q := by rw [← hqj]; exact hinv q hq
  rw [e1, e2]
  exact Or.inl ((hord p q hp hq).mp (by omega))

/-- Witness of C1 on the text `banana$`. -/
theorem manberMyers_order_witness :
    1 ≤ [2, 1, 3, 1, 3, 1, 0].length ∧ InRange [2, 1, 3, 1, 3, 1, 0] ∧
      Sentinel [2, 1, 3, 1, 3, 1, 0] ∧
      ∃ sa, manberMyers [2, 1, 3, 1, 3, 1, 0] = .ok sa ∧ sa.length = [2, 1, 3, 1, 3, 1, 0].length ∧
        ∀ j, j + 1 < [2, 1, 3, 1, 3, 1, 0].length →
          sufLE [2, 1, 3, 1, 3, 1, 0] (sa.getD j 0) (sa.getD (j + 1) 0) :=
  ⟨by decide, by decide, by decide,
    manberMyers_order [2, 1, 3, 1, 3, 1, 0] (by decide) (by decide) (by decide)⟩

/-- C2 (permutation property): on a rank-encoded text of length at least 1
whose last element is strictly smaller than every other element, `manberMyers`
returns a permutation of `[0, m)`: every integer below the length occurs
exactly once. -/
theorem manberMyers_perm (text : List Nat) (hlen : 1 ≤ text.length) (hr : InRange text)
    (hs : Sentinel text) :
    ∃ sa, manberMyers text = .ok sa ∧ sa.Perm (List.range text.length) ∧
      ∀ v, v < text.length → sa.count v = 1 := by
  obtain ⟨r, sa, _, hsa, hrlen, hsalen, hperm, _, hinv⟩ := manberMyers_spec text hlen hr hs
  have hsub : List.range text.length ⊆ sa := by
    intro p hp
    have hp1 : p < text.length := List.mem_range.mp hp
    have h1 := hinv p hp1
    have hlt : r.getD p 0 < sa.length := by
      rw [hsalen]
      have : r.getD p 0 ∈ r := by
        rw [List.getD_eq_getElem _ _ (by omega)]; exact List.getElem_mem _
      exact List.mem_range.mp (hperm.mem_iff.mp this)
    rw [List.getD_eq_getElem _ _ hlt] at h1
    rw [← h1]
    exact List.getElem_mem _
  have hp : sa.Perm (List.range text.length) :=
    (((List.nodup_range _).subperm hsub).perm_of_length_le (by simp [hsalen])).symm
  refine ⟨sa, hsa, hp, ?_⟩
  intro v hv
  rw [hp.count_eq]
  exact List.count_eq_one_of_mem (List.nodup_range _) (List.mem_range.mpr hv)

/-- Witness of C2 on the text `banana$`. -/
theorem manberMyers_perm_witness :
    1 ≤ [2, 1, 3, 1, 3, 1, 0].length ∧ InRange [2, 1, 3, 1, 3, 1, 0] ∧
      Sentinel [2, 1, 3, 1, 3, 1, 0] ∧
      ∃ sa, manberMyers [2, 1, 3, 1, 3, 1, 0] = .ok sa ∧
        sa.Perm (List.range [2, 1, 3, 1, 3, 1, 0].length) ∧
        ∀ v, v < [2, 1, 3, 1, 3, 1, 0].length → sa.count v = 1 :=
  ⟨by decide, by decide, by decide,
    manberMyers_perm [2, 1, 3, 1, 3, 1, 0] (by decide) (by decide) (by decide)⟩

/-- C3 (known example): on `[2,1,3,1,3,1,0]`, the rank encoding of `banana$`,
`manberMyers` returns exactly `[6,5,3,1,0,4,2]`. -/
theorem manberMyers_banana :
    manberMyers [2, 1, 3, 1, 3, 1, 0] = .ok [6, 5, 3, 1, 0, 4, 2] := by
  rfl

/-- C4 (length preservation): whatever the text, an array returned by
`manberMyers` has the length of the text; and on every text whose elements are
all below its length, the empty text included, `manberMyers` does return. -/
theorem manberMyers_length_preserved (text : List Nat) :
    (∀ sa, manberMyers text = .ok sa → sa.length = text.length) ∧
      (InRange text → ∃ sa, manberMyers text = .ok sa ∧ sa.length = text.length) := by
  refine ⟨fun sa h => manberMyers_length h, fun hr => ?_⟩
  obtain ⟨_, sa, _, _, _, hsa⟩ := manberMyers_total text hr
  exact ⟨sa, hsa, manberMyers_length hsa⟩

/-- Witness of C4 on a text without a proper sentinel. -/
theorem manberMyers_length_preserved_witness :
    (∀ sa, manberMyers [0, 0, 0] = .ok sa → sa.length = [0, 0, 0].length) ∧
      (InRange [0, 0, 0] → ∃ sa, manberMyers [0, 0, 0] = .ok sa ∧ sa.length = [0, 0, 0].length) ∧
      InRange [0, 0, 0] ∧ manberMyers [0, 0, 0] = .ok [2, 0, 0] :=
  ⟨(manberMyers_length_preserved [0, 0, 0]).1, (manberMyers_length_preserved [0, 0, 0]).2,
    by decide, rfl⟩

/-- C5 (degenerate repetition): for every `n ≥ 1`, on the text of `n` ones
followed by a single `0`, `manberMyers` returns the descending sequence
`[n, n-1, ..., 1, 0]`. -/
theorem manberMyers_ones (n : Nat) (hn : 1 ≤ n) :
    manberMyers (List.replicate n 1 ++ [0]) = .ok (List.range (n + 1)).reverse := by
  have hlen : (List.replicate n 1 ++ [0]).length = n + 1 := by simp
  have hr : InRange (List.replicate n 1 ++ [0]) := by
    intro x hx
    rw [hlen]
    rcases List.mem_append.mp hx with h | h
    · have := (List.mem_replicate.mp h).2; omega
    · simp at h; omega
  have hs : Sentinel (List.replicate n 1 ++ [0]) := by
    intro i hi
    rw [hlen] at hi
    have h1 := chr_ones n (n + 1 - 1)
    have h2 := chr_ones n i
    unfold chr at h1 h2
    rw [hlen, h1, h2, if_neg (by omega), if_pos (by omega)]
    exact Nat.zero_lt_one
  obtain ⟨r, sa, _, hsa, hrlen, hsalen, hperm, hord, hinv⟩ :=
    manberMyers_spec _ (by omega) hr hs
  rw [hlen] at hrlen hsalen hperm hord hinv
  have hdec : ∀ p q, p < q → q ≤ n → r.getD q 0 < r.getD p 0 := by
    intro p q hpq hq
    exact (hord q p (by omega) (by omega)).mpr (sufLT_ones n p q hpq hq)
  have hub : ∀ p, p ≤ n → r.getD p 0 + p ≤ n := by
    intro p
    induction p with
    | zero =>
      intro _
      have : r.getD 0 0 ∈ r := by
        rw [List.getD_eq_getElem _ _ (by omega)]; exact List.getElem_mem _
      have := List.mem_range.mp (hperm.mem_iff.mp this)
      omega
    | succ p ih =>
      intro hp
      have := hdec p (p + 1) (by omega) hp
      have := ih (by omega)
      omega
  have hlb : ∀ k, k ≤ n → k ≤ r.getD (n - k) 0 := by
    intro k
    induction k with
    | zero => intro _; omega
    | succ k ih =>
      intro hk
      have := hdec (n - (k + 1)) (n - k) (by omega) (by omega)
      have := ih (by omega)
      omega
  have hrank : ∀ p, p ≤ n → r.getD p 0 = n - p := by
    intro p hp
    have h1 := hub p hp
    have h2 := hlb (n - p) (by omega)
    have e : n - (n - p) = p := by omega
    rw [e] at h2
    omega
  have hval : ∀ j, j ≤ n → sa.getD j 0 = n - j := by
    intro j hj
    have h := hinv (n - j) (by omega)
    rw [hrank (n - j) (by omega)] at h
    have e : n - (n - j) = j := by omega
    rwa [e] at h
  rw [hsa]
  congr 1
  apply List.ext_getElem
  · simp [hsalen]
  · intro j h1 h2
    have hj : j ≤ n := by omega
    rw [← List.getD_eq_getElem sa 0 h1, hval j hj]
    simp

/-- Witness of C5: the spec's instance `[1,1,1,0]` gives `[3,2,1,0]`. -/
theorem manberMyers_ones_witness :
    1 ≤ 3 ∧ manberMyers [1, 1, 1, 0] = .ok [3, 2, 1, 0] :=
  ⟨by decide, manberMyers_ones 3 (by decide)⟩

/-- C6 (singleton): on `[0]` the doubling loop exits at its first test, without
running its body, and `manberMyers` returns `[0]`. -/
theorem manberMyers_singleton :
    manberMyers [0] = .ok [0] ∧ doublingLoop 1 1 [0] = .ok [0] ∧
      ¬ (1 < [0].length) := by
  refine ⟨rfl, rfl, by decide⟩

theorem buildStrings_bound (r : List Nat) (w : Nat) (hpos : 0 < r.length)
    (hb : ∀ p, p < r.length → r.getD p 0 < r.length) :
    ∀ s ∈ buildStrings r w, s.entry.1 < r.length ∧ s.entry.2 < r.length := by
  intro s hs
  obtain ⟨i, hi, rfl⟩ := (mem_buildStrings _ _ _).mp hs
  refine ⟨hb i hi, ?_⟩
  simp only [makeSuffix]
  split
  · rename_i h; exact hb _ h
  · exact hpos

/-- C7 as stated fails: `[5,7,0]` has length 3, its last element is strictly
smaller than the others and occurs once, yet the rank array with which the
loop starts holds `5`, which is not below 3, and the run ends in an
out-of-range access. -/
theorem rank_range_counterexample :
    1 ≤ [5, 7, 0].length ∧ Sentinel [5, 7, 0] ∧ [5, 7, 0].count 0 = 1 ∧
      Reaches [5, 7, 0] 1 [5, 7, 0] ∧ ¬ ([5, 7, 0].getD 0 0 < [5, 7, 0].length) ∧
      manberMyers [5, 7, 0] = .error .outOfRange :=
  ⟨by decide, by decide, by decide, Reaches.init, by decide, rfl⟩

/-- C7 (amended): on a text of length at least 1 whose last element is strictly
smaller than every other element and whose elements are all below the length,
every state in which the head of the doubling loop is reached has a rank array
of the length of the text with all values below that length, every key
component built from it is below the number of buckets, the loop exits with
such a rank array, and `manberMyers` returns without an out-of-range access. -/
theorem rank_range (text : List Nat) (hlen : 1 ≤ text.length) (hs : Sentinel text)
    (hr : InRange text) :
    (∀ w r, Reaches text w r →
      r.length = text.length ∧ (∀ p, p < text.length → r.getD p 0 < text.length) ∧
      ∀ s ∈ buildStrings r w, s.entry.1 < text.length ∧ s.entry.2 < text.length) ∧
    ∃ r sa, doublingLoop (text.length + 1) 1 text = .ok r ∧
      (∀ p, p < text.length → r.getD p 0 < text.length) ∧ manberMyers text = .ok sa := by
  constructor
  · intro w r hreach
    obtain ⟨h1, h2⟩ := reaches_range hr hreach
    refine ⟨h1, h2, ?_⟩
    have := buildStrings_bound r w (by omega) (by rw [h1]; exact h2)
    rwa [h1] at this
  · obtain ⟨r, sa, hloop, hsa, hrlen, hsalen, hperm, _, hinv⟩ :=
      manberMyers_spec text hlen hr hs
    refine ⟨r, sa, hloop, ?_, hsa⟩
    intro p hp
    have : r.getD p 0 ∈ r := by
      rw [List.getD_eq_getElem _ _ (by omega)]; exact List.getElem_mem _
    exact List.mem_range.mp (hperm.mem_iff.mp this)

/-- Witness of the amended C7 on the text `banana$`. -/
theorem rank_range_witness :
    1 ≤ [2, 1, 3, 1, 3, 1, 0].length ∧ Sentinel [2, 1, 3, 1, 3, 1, 0] ∧
      InRange [2, 1, 3, 1, 3, 1, 0] ∧
      ((∀ w r, Reaches [2, 1, 3, 1, 3, 1, 0] w r →
        r.length = [2, 1, 3, 1, 3, 1, 0].length ∧
        (∀ p, p < [2, 1, 3, 1, 3, 1, 0].length → r.getD p 0 < [2, 1, 3, 1, 3, 1, 0].length) ∧
        ∀ s ∈ buildStrings r w, s.entry.1 < [2, 1, 3, 1, 3, 1, 0].length ∧
          s.entry.2 < [2, 1, 3, 1, 3, 1, 0].length) ∧
      ∃ r sa, doublingLoop ([2, 1, 3, 1, 3, 1, 0].length + 1) 1 [2, 1, 3, 1, 3, 1, 0] = .ok r ∧
        (∀ p, p < [2, 1, 3, 1, 3, 1, 0].length → r.getD p 0 < [2, 1, 3, 1, 3, 1, 0].length) ∧
        manberMyers [2, 1, 3, 1, 3, 1, 0] = .ok sa) :=
  ⟨by decide, by decide, by decide,
    rank_range [2, 1, 3, 1, 3, 1, 0] (by decide) (by decide) (by decide)⟩

/-- C8 as stated fails: the empty text is not rejected, no fault of any kind
is returned for it. -/
theorem empty_not_rejected : ¬ ∃ e, manberMyers [] = .error e := by
  rintro ⟨e, h⟩
  cases h

/-- C8 (amended): `manberMyers` performs no validation; on the empty text the
loop body never runs and the empty array is returned. -/
theorem manberMyers_empty :
    manberMyers [] = .ok [] ∧ doublingLoop 1 1 [] = .ok [] := by
  exact ⟨rfl, rfl⟩

/-- C9 as stated fails: `[1,1,0]` is not rejected, no fault of any kind is
returned for it. -/
theorem sentinel_example_not_rejected : ¬ ∃ e, manberMyers [1, 1, 0] = .error e := by
  rintro ⟨e, h⟩
  cases h

/-- C9 (amended): `manberMyers` performs no validation; `[1,1,0]` is a
rank-encoded text whose last element is strictly smaller than the others, and
on it `manberMyers` returns the suffix array `[2,1,0]`. -/
theorem manberMyers_sentinel_example :
    InRange [1, 1, 0] ∧ Sentinel [1, 1, 0] ∧ [1, 1, 0].count 0 = 1 ∧
      manberMyers [1, 1, 0] = .ok [2, 1, 0] := by
  exact ⟨by decide, by decide, by decide, rfl⟩

/-! ## Step counts -/

theorem distributeT_eq (Index : Fin 2) (strings : List Suffix) :
    ∀ (buckets : List (List Suffix)) (t : Nat),
      distributeT Index strings buckets t =
        (distribute Index strings buckets).map (fun x => (x, t + strings.length)) := by
  induction strings with
  | nil => intro buckets t; rfl
  | cons str rest ih =>
    intro buckets t
    simp only [distributeT, distribute]
    cases readAt buckets (getEntry Index str.entry) with
    | error e => rfl
    | ok bucket =>
      simp only [bind_ok, ih, List.length_cons]
      rw [Nat.add_assoc, Nat.add_comm 1]

theorem gatherBucketT_eq (bucket : List Suffix) :
    ∀ (strings : List Suffix) (i t : Nat),
      gatherBucketT bucket strings i t =
        (gatherBucket bucket strings i).map (fun x => (x, t + bucket.length)) := by
  induction bucket with
  | nil => intro strings i t; rfl
  | cons e rest ih =>
    intro strings i t
    simp only [gatherBucketT, gatherBucket]
    cases writeAt strings i e with
    | error e => rfl
    | ok strings1 =>
      simp only [bind_ok, ih, List.length_cons]
      rw [Nat.add_assoc, Nat.add_comm 1]

theorem gatherT_eq (buckets : List (List Suffix)) :
    ∀ (strings : List Suffix) (i t : Nat),
      gatherT buckets strings i t =
        (gather buckets strings i).map
          (fun x => (x, t + buckets.length + buckets.flatten.length)) := by
  induction buckets with
  | nil => intro strings i t; rfl
  | cons bucket rest ih =>
    intro strings i t
    simp only [gatherT, gather, gatherBucketT_eq]
    cases gatherBucket bucket strings i with
    | error e => rfl
    | ok p =>
      obtain ⟨strings1, i1⟩ := p
      simp only [Except.map, bind_ok, ih]
      cases gather rest strings1 i1 with
      | error e => rfl
      | ok q =>
        obtain ⟨strings2, rest2⟩ := q
        simp only [Except.map, bind_ok, List.length_cons, List.flatten_cons, List.length_append]
        have e : t + 1 + bucket.length + rest.length + rest.flatten.length =
            t + (rest.length + 1) + (bucket.length + rest.flatten.length) := by omega
        rw [e]

theorem flatten_length_set (str : Suffix) (buckets : List (List Suffix)) :
    ∀ (k : Nat) (bucket : List Suffix), readAt buckets k = .ok bucket →
      (buckets.set k (bucket ++ [str])).flatten.length = buckets.flatten.length + 1 := by
  induction buckets with
  | nil => intro k bucket h; simp [readAt] at h
  | cons b0 bs ih =>
    intro k bucket h
    cases k with
    | zero =>
      simp only [readAt, List.getElem?_cons_zero] at h
      cases h
      simp only [List.set_cons_zero, List.flatten_cons, List.length_append, List.length_singleton]
      omega
    | succ k =>
      have h1 : readAt bs k = .ok bucket := by
        simpa only [readAt, List.getElem?_cons_succ] using h
      simp only [List.set_cons_succ, List.flatten_cons, List.length_append, ih k bucket h1]
      omega

theorem distribute_size (Index : Fin 2) (strings : List Suffix) :
    ∀ (buckets buckets1 : List (List Suffix)), distribute Index strings buckets = .ok buckets1 →
      buckets1.length = buckets.length ∧
        buckets1.flatten.length = buckets.flatten.length + strings.length := by
  induction strings with
  | nil => intro buckets buckets1 h; cases h; exact ⟨rfl, rfl⟩
  | cons str rest ih =>
    intro buckets buckets1 h
    rw [distribute] at h
    cases hr : readAt buckets (getEntry Index str.entry) with
    | error e => rw [hr] at h; cases h
    | ok bucket =>
      rw [hr, bind_ok] at h
      obtain ⟨h1, h2⟩ := ih _ _ h
      rw [flatten_length_set str buckets _ bucket hr] at h2
      rw [List.length_set] at h1
      exact ⟨h1, by rw [h2, List.length_cons]; omega⟩

theorem gatherBucket_size (bucket : List Suffix) :
    ∀ (strings strings1 : List Suffix) (i i1 : Nat),
      gatherBucket bucket strings i = .ok (strings1, i1) → strings1.length = strings.length := by
  induction bucket with
  | nil => intro strings strings1 i i1 h; cases h; rfl
  | cons e rest ih =>
    intro strings strings1 i i1 h
    rw [gatherBucket] at h
    cases hw : writeAt strings i e with
    | error e => rw [hw] at h; cases h
    | ok v =>
      rw [hw, bind_ok] at h
      rw [ih _ _ _ _ h, writeAt_length hw]

theorem gather_size (buckets : List (List Suffix)) :
    ∀ (strings strings1 : List Suffix) (buckets1 : List (List Suffix)) (i : Nat),
      gather buckets strings i = .ok (strings1, buckets1) →
        strings1.length = strings.length ∧ buckets1 = List.replicate buckets.length [] := by
  induction buckets with
  | nil => intro strings strings1 buckets1 i h; cases h; exact ⟨rfl, rfl⟩
  | cons bucket rest ih =>
    intro strings strings1 buckets1 i h
    rw [gather] at h
    cases hb : gatherBucket bucket strings i with
    | error e => rw [hb] at h; cases h
    | ok p =>
      obtain ⟨s1, i1⟩ := p
      rw [hb, bind_ok] at h
      cases hg : gather rest s1 i1 with
      | error e => simp only [hg] at h; cases h
      | ok q =>
        obtain ⟨s2, rest2⟩ := q
        simp only [hg, bind_ok] at h
        cases h
        obtain ⟨h1, h2⟩ := ih _ _ _ _ hg
        exact ⟨by rw [h1, gatherBucket_size _ _ _ _ _ hb], by rw [h2]; rfl⟩

theorem countingSort_size (Index : Fin 2) (strings strings1 : List Suffix)
    (buckets buckets1 : List (List Suffix))
    (h : countingSort Index strings buckets = .ok (strings1, buckets1)) :
    strings1.length = strings.length ∧ buckets1 = List.replicate buckets.length [] := by
  rw [countingSort] at h
  cases hd : distribute Index strings buckets with
  | error e => rw [hd] at h; cases h
  | ok b1 =>
    rw [hd, bind_ok] at h
    obtain ⟨h1, h2⟩ := gather_size _ _ _ _ _ h
    exact ⟨h1, by rw [h2, (distribute_size _ _ _ _ hd).1]⟩

theorem countingSortT_eq (Index : Fin 2) (strings : List Suffix)
    (buckets : List (List Suffix)) (t : Nat) :
    countingSortT Index strings buckets t =
      (countingSort Index strings buckets).map
        (fun x => (x, t + 2 * strings.length + buckets.length + buckets.flatten.length)) := by
  simp only [countingSortT, countingSort, distributeT_eq]
  cases hd : distribute Index strings buckets with
  | error e => rfl
  | ok b1 =>
    obtain ⟨h1, h2⟩ := distribute_size _ _ _ _ hd
    simp only [Except.map, bind_ok, gatherT_eq, h1, h2]
    have e : t + strings.length + buckets.length + (buckets.flatten.length + strings.length) =
        t + 2 * strings.length + buckets.length + buckets.flatten.length := by omega
    rw [e]

theorem flatten_replicate_nil (n : Nat) :
    (List.replicate n ([] : List Suffix)).flatten = [] := by
  induction n with
  | zero => rfl
  | succ n ih => rw [List.replicate_succ, List.flatten_cons, ih]; rfl

theorem radixSort_length {strings strings2 : List Suffix}
    (h : radixSort strings = .ok strings2) : strings2.length = strings.length := by
  rw [radixSort] at h
  cases h1 : countingSort 1 strings (List.replicate strings.length []) with
  | error e => simp only [h1] at h; cases h
  | ok p =>
    obtain ⟨s1, b1⟩ := p
    simp only [h1, bind_ok] at h
    cases h2 : countingSort 0 s1 b1 with
    | error e => simp only [h2] at h; cases h
    | ok q =>
      obtain ⟨s2, b2⟩ := q
      simp only [h2, bind_ok] at h
      cases h
      rw [(countingSort_size _ _ _ _ _ h2).1, (countingSort_size _ _ _ _ _ h1).1]

theorem radixSortT_eq (strings : List Suffix) (t : Nat) :
    radixSortT strings t = (radixSort strings).map (fun x => (x, t + 7 * strings.length)) := by
  simp only [radixSortT, radixSort, countingSortT_eq]
  cases h1 : countingSort 1 strings (List.replicate strings.length []) with
  | error e => rfl
  | ok p =>
    obtain ⟨s1, b1⟩ := p
    obtain ⟨hs1, hb1⟩ := countingSort_size _ _ _ _ _ h1
    simp only [Except.map, bind_ok]
    cases h2 : countingSort 0 s1 b1 with
    | error e => rfl
    | ok q =>
      obtain ⟨s2, b2⟩ := q
      simp only [Except.map, bind_ok, hb1, hs1, flatten_replicate_nil, List.length_replicate,
        List.length_nil]
      have e : t + strings.length + 2 * strings.length + strings.length + 0 +
          2 * strings.length + strings.length + 0 = t + 7 * strings.length := by omega
      rw [e]

theorem recomputeT_eq (L : List Suffix) :
    ∀ (idx : Nat) (result : List Nat) (t : Nat),
      recomputeT L idx result t =
        (recompute L idx result).map (fun x => (x, t + L.length)) := by
  induction L with
  | nil => intro idx result t; rfl
  | cons s tail ih =>
    intro idx result t
    cases tail with
    | nil =>
      simp only [recomputeT, recompute]
      cases writeAt result s.index idx <;> rfl
    | cons u rest =>
      simp only [recomputeT, recompute]
      cases writeAt result s.index idx with
      | error e => rfl
      | ok v =>
        simp only [bind_ok, ih, List.length_cons]
        have e : t + 1 + (rest.length + 1) = t + (rest.length + 1 + 1) := by omega
        rw [e]

theorem iterationT_eq (result : List Nat) (halfSize t : Nat) :
    iterationT result halfSize t =
      (iteration result halfSize).map (fun x => (x, t + 9 * result.length)) := by
  simp only [iterationT, iteration, radixSortT_eq]
  cases h : radixSort (buildStrings result halfSize) with
  | error e => rfl
  | ok L =>
    have hl := radixSort_length h
    rw [buildStrings_length] at hl
    simp only [Except.map, bind_ok, recomputeT_eq, hl, buildStrings_length]
    have e : t + result.length + 7 * result.length + result.length = t + 9 * result.length := by
      omega
    rw [e]

theorem invertLoopT_eq (rest : List Nat) :
    ∀ (i : Nat) (sa : List Nat) (t : Nat),
      invertLoopT rest i sa t = (invertLoop rest i sa).map (fun x => (x, t + rest.length)) := by
  induction rest with
  | nil => intro i sa t; rfl
  | cons r rest ih =>
    intro i sa t
    simp only [invertLoopT, invertLoop]
    cases writeAt sa r i with
    | error e => rfl
    | ok v =>
      simp only [bind_ok, ih, List.length_cons]
      rw [Nat.add_assoc, Nat.add_comm 1]

theorem doublingLoopT_bound (f : Nat) :
    ∀ (fuel w : Nat) (r : List Nat) (t : Nat), r.length ≤ w * 2 ^ f → f < fuel →
      ∃ c, c ≤ f * (9 * r.length + 1) + 1 ∧
        doublingLoopT fuel w r t = (doublingLoop fuel w r).map (fun x => (x, t + c)) := by
  induction f with
  | zero =>
    intro fuel w r t hw hf
    obtain ⟨fuel1, rfl⟩ : ∃ k, fuel = k + 1 := ⟨fuel - 1, by omega⟩
    have hn : ¬ w < r.length := by simp at hw; omega
    exact ⟨1, by omega, by simp only [doublingLoopT, doublingLoop, if_neg hn]; rfl⟩
  | succ f ih =>
    intro fuel w r t hw hf
    obtain ⟨fuel1, rfl⟩ : ∃ k, fuel = k + 1 := ⟨fuel - 1, by omega⟩
    by_cases hlt : w < r.length
    · cases hi : iteration r w with
      | error e =>
        refine ⟨1, by omega, ?_⟩
        simp only [doublingLoopT, doublingLoop, if_pos hlt, iterationT_eq, hi]
        rfl
      | ok r1 =>
        have hlen := iteration_length hi
        obtain ⟨c, hc, he⟩ := ih fuel1 (w * 2) r1 (t + 1 + 9 * r.length)
          (by rw [hlen]; rw [Nat.pow_succ] at hw
              calc r.length ≤ w * (2 ^ f * 2) := hw
                _ = w * 2 * 2 ^ f := by ring)
          (by omega)
        rw [hlen] at hc
        refine ⟨1 + 9 * r.length + c, ?_, ?_⟩
        · have : (f + 1) * (9 * r.length + 1) = f * (9 * r.length + 1) + (9 * r.length + 1) := by
            ring
          omega
        · simp only [doublingLoopT, doublingLoop, if_pos hlt, iterationT_eq, hi, Except.map,
            bind_ok, he]
          have e : t + 1 + 9 * r.length + c = t + (1 + 9 * r.length + c) := by omega
          rw [e]
    · exact ⟨1, by omega, by simp only [doublingLoopT, doublingLoop, if_neg hlt]; rfl⟩

theorem manberMyersT_bound (text : List Nat) :
    ∃ c, c ≤ (9 * text.length + 1) * Nat.clog 2 text.length + 3 * text.length + 1 ∧
      manberMyersT text = (manberMyers text).map (fun sa => (sa, c)) := by
  have hclog : Nat.clog 2 text.length < text.length + 1 := by
    have : Nat.clog 2 text.length ≤ text.length :=
      (Nat.le_pow_iff_clog_le (by decide)).mp (Nat.le_of_lt (Nat.lt_two_pow _))
    omega
  obtain ⟨c, hc, he⟩ := doublingLoopT_bound (Nat.clog 2 text.length) (text.length + 1) 1 text
    text.length (by rw [Nat.one_mul]; exact Nat.le_pow_clog (by decide) _) hclog
  refine ⟨c + 3 * text.length, ?_, ?_⟩
  · have : Nat.clog 2 text.length * (9 * text.length + 1) =
        (9 * text.length + 1) * Nat.clog 2 text.length := Nat.mul_comm _ _
    omega
  · simp only [manberMyersT, manberMyers, he]
    cases hl : doublingLoop (text.length + 1) 1 text with
    | error e => rfl
    | ok r =>
      have hlen := doublingLoop_length _ _ _ _ hl
      simp only [Except.map, bind_ok, invertLoopT_eq, hlen]
      have e : text.length + c + text.length + text.length = c + 3 * text.length := by omega
      rw [e]

/-- C10 (running time): counting one step per executed loop body, per test of
the doubling loop and per element of a constructed or copied vector, one
doubling iteration on a rank array of length `m` takes exactly `9 * m` steps
whenever it returns, and a run of `manberMyers` on a text of length `m` takes
at most `(9 * m + 1) * ⌈log2 m⌉ + 3 * m + 1` steps; the counted run returns
exactly what `manberMyers` returns, and it does return on every text whose
elements are below its length. -/
theorem manberMyers_steps (text : List Nat) :
    (∀ result halfSize t, iterationT result halfSize t =
      (iteration result halfSize).map (fun x => (x, t + 9 * result.length))) ∧
    (∃ c, c ≤ (9 * text.length + 1) * Nat.clog 2 text.length + 3 * text.length + 1 ∧
      manberMyersT text = (manberMyers text).map (fun sa => (sa, c))) ∧
    (InRange text → ∃ sa c, manberMyersT text = .ok (sa, c) ∧
      c ≤ (9 * text.length + 1) * Nat.clog 2 text.length + 3 * text.length + 1) := by
  refine ⟨iterationT_eq, manberMyersT_bound text, fun hr => ?_⟩
  obtain ⟨c, hc, he⟩ := manberMyersT_bound text
  obtain ⟨_, sa, _, _, _, hsa⟩ := manberMyers_total text hr
  exact ⟨sa, c, by rw [he, hsa]; rfl, hc⟩

/-- Witness of C10 on the text `banana$`. -/
theorem manberMyers_steps_witness :
    InRange [2, 1, 3, 1, 3, 1, 0] ∧
      ∃ sa c, manberMyersT [2, 1, 3, 1, 3, 1, 0] = .ok (sa, c) ∧
        c ≤ (9 * [2, 1, 3, 1, 3, 1, 0].length + 1) * Nat.clog 2 [2, 1, 3, 1, 3, 1, 0].length +
          3 * [2, 1, 3, 1, 3, 1, 0].length + 1 :=
  ⟨by decide, (manberMyers_steps [2, 1, 3, 1, 3, 1, 0]).2.2 (by decide)⟩

/-! ## Loop states and the invariant -/

theorem reaches_inv {text : List Nat} (hs : Sentinel text) (hr : InRange text)
    (hpos : 0 < text.length) {w : Nat} {r : List Nat} (h : Reaches text w r) :
    RankInv text w r := by
  induction h with
  | init => exact rankInv_init text hr
  | @step w0 r0 r1 _ _ hit ih =>
    obtain ⟨r2, hr2, hinv⟩ := iteration_inv ih hs hpos
    rw [hit] at hr2
    cases hr2
    exact hinv

theorem reaches_pow {text : List Nat} {w : Nat} {r : List Nat} (h : Reaches text w r) :
    ∃ k, w = 2 ^ k := by
  induction h with
  | init => exact ⟨0, rfl⟩
  | step _ _ _ ih =>
    obtain ⟨k, hk⟩ := ih
    exact ⟨k + 1, by rw [hk, Nat.pow_succ]⟩

theorem doublingLoop_reaches {text : List Nat} (fuel : Nat) :
    ∀ (w : Nat) (r r1 : List Nat), Reaches text w r → doublingLoop fuel w r = .ok r1 →
      ∃ w1, Reaches text w1 r1 ∧ r1.length ≤ w1 := by
  induction fuel with
  | zero => intro w r r1 _ h; cases h
  | succ fuel ih =>
    intro w r r1 hreach h
    rw [doublingLoop] at h
    split at h
    · rename_i hlt
      cases hi : iteration r w with
      | error e => rw [hi] at h; cases h
      | ok r2 =>
        rw [hi, bind_ok] at h
        exact ih _ _ _ (Reaches.step hreach hlt hi) h
    · rename_i hlt
      cases h
      exact ⟨w, hreach, by omega⟩

/-- C11 (doubling invariant): on a rank-encoded text of length at least 1 whose
last element is strictly smaller than every other element, every state in
which the head of the doubling loop is reached has a window `w` that is a power
of two and a rank array that compares two positions exactly as the length-`w`
prefixes of their zero-extended suffixes compare, for `<` and for `=`; the
state in which the loop exits is such a state, with `w` at least the length. -/
theorem doubling_invariant (text : List Nat) (hlen : 1 ≤ text.length) (hr : InRange text)
    (hs : Sentinel text) :
    (∀ w r, Reaches text w r → (∃ k, w = 2 ^ k) ∧
      ∀ i j, i < text.length → j < text.length →
        (r.getD i 0 < r.getD j 0 ↔ prefLT text w i j) ∧
        (r.getD i 0 = r.getD j 0 ↔ prefEQ text w i j)) ∧
    ∃ r w, doublingLoop (text.length + 1) 1 text = .ok r ∧ Reaches text w r ∧
      text.length ≤ w := by
  constructor
  · intro w r hreach
    have hinv := reaches_inv hs hr hlen hreach
    exact ⟨reaches_pow hreach, fun i j hi hj => ⟨hinv.2.2 i j hi hj, hinv.eq_iff hi hj⟩⟩
  · obtain ⟨r, _, hloop, _⟩ := manberMyers_total text hr
    obtain ⟨w, hreach, hw⟩ := doublingLoop_reaches _ _ _ _ Reaches.init hloop
    refine ⟨r, w, hloop, hreach, ?_⟩
    rw [← (reaches_range hr hreach).1]
    exact hw

/-- Witness of C11 on the text `banana$`. -/
theorem doubling_invariant_witness :
    1 ≤ [2, 1, 3, 1, 3, 1, 0].length ∧ InRange [2, 1, 3, 1, 3, 1, 0] ∧
      Sentinel [2, 1, 3, 1, 3, 1, 0] ∧
      ((∀ w r, Reaches [2, 1, 3, 1, 3, 1, 0] w r → (∃ k, w = 2 ^ k) ∧
        ∀ i j, i < [2, 1, 3, 1, 3, 1, 0].length → j < [2, 1, 3, 1, 3, 1, 0].length →
          (r.getD i 0 < r.getD j 0 ↔ prefLT [2, 1, 3, 1, 3, 1, 0] w i j) ∧
          (r.getD i 0 = r.getD j 0 ↔ prefEQ [2, 1, 3, 1, 3, 1, 0] w i j)) ∧
      ∃ r w, doublingLoop ([2, 1, 3, 1, 3, 1, 0].length + 1) 1 [2, 1, 3, 1, 3, 1, 0] = .ok r ∧
        Reaches [2, 1, 3, 1, 3, 1, 0] w r ∧ [2, 1, 3, 1, 3, 1, 0].length ≤ w) :=
  ⟨by decide, by decide, by decide,
    doubling_invariant [2, 1, 3, 1, 3, 1, 0] (by decide) (by decide) (by decide)⟩

/-! ## The sorts as stated in the specification -/

theorem bucketSort_succ (key : Suffix → Nat) (strings : List Suffix) (B : Nat) :
    bucketSort key (B + 1) strings =
      bucketSort key B strings ++ strings.filter (fun s => key s = B) := by
  simp [bucketSort, List.range_succ, List.flatMap_append]

theorem bucketSort_filter (key : Suffix → Nat) (strings : List Suffix) (b : Nat) :
    ∀ B, (bucketSort key B strings).filter (fun s => key s = b) =
      if b < B then strings.filter (fun s => key s = b) else [] := by
  intro B
  induction B with
  | zero => simp [bucketSort]
  | succ B ih =>
    rw [bucketSort_succ, List.filter_append, ih, List.filter_filter]
    by_cases hb : b < B
    · have hne : ∀ s : Suffix, ¬ (key s = b ∧ key s = B) := by intro s; omega
      rw [if_pos hb, if_pos (by omega)]
      have : strings.filter (fun s => decide (key s = b) && decide (key s = B)) = [] := by
        rw [List.filter_eq_nil_iff]
        intro s _
        simpa using fun h1 h2 => hne s ⟨h1, h2⟩
      rw [this, List.append_nil]
    · rw [if_neg hb, List.nil_append]
      by_cases hbB : b = B
      · subst hbB
        rw [if_pos (by omega)]
        apply List.filter_congr
        intro s _
        simp
      · rw [if_neg (by omega), List.filter_eq_nil_iff]
        intro s _
        simp only [Bool.and_eq_true, decide_eq_true_eq, not_and]
        omega

/-- C12 (radix sort): for a list of `n` entries whose two key components are
all below `n`, `radixSort` returns, and leaves a permutation of the entries,
each with its key and position tag, in ascending lexicographic order of
(primary, secondary). -/
theorem radixSort_sorts (strings : List Suffix)
    (h0 : ∀ s ∈ strings, s.entry.1 < strings.length)
    (h1 : ∀ s ∈ strings, s.entry.2 < strings.length) :
    ∃ L, radixSort strings = .ok L ∧ L.Perm strings ∧
      L.Pairwise (fun s t => lexLE s.entry t.entry) :=
  ⟨radixSorted strings, radixSort_spec strings h0 h1, radixSorted_perm strings h0 h1,
    radixSorted_sorted strings⟩

/-- Witness of C12 on three entries. -/
theorem radixSort_sorts_witness :
    (∀ s ∈ [Suffix.mk (1, 2) 0, Suffix.mk (1, 0) 1, Suffix.mk (0, 2) 2],
        s.entry.1 < [Suffix.mk (1, 2) 0, Suffix.mk (1, 0) 1, Suffix.mk (0, 2) 2].length) ∧
      (∀ s ∈ [Suffix.mk (1, 2) 0, Suffix.mk (1, 0) 1, Suffix.mk (0, 2) 2],
        s.entry.2 < [Suffix.mk (1, 2) 0, Suffix.mk (1, 0) 1, Suffix.mk (0, 2) 2].length) ∧
      ∃ L, radixSort [Suffix.mk (1, 2) 0, Suffix.mk (1, 0) 1, Suffix.mk (0, 2) 2] = .ok L ∧
        L.Perm [Suffix.mk (1, 2) 0, Suffix.mk (1, 0) 1, Suffix.mk (0, 2) 2] ∧
        L.Pairwise (fun s t => lexLE s.entry t.entry) :=
  ⟨by decide, by decide,
    radixSort_sorts [Suffix.mk (1, 2) 0, Suffix.mk (1, 0) 1, Suffix.mk (0, 2) 2]
      (by decide) (by decide)⟩

/-- C13 (stable counting sort): for either key component, given `B` empty
buckets and entries whose component is below `B`, `countingSort` returns,
leaves the buckets empty, and rewrites the list as a permutation of itself
sorted ascending by the component in which, for every key value, the entries
with that value stand in their original order. -/
theorem countingSort_stable (Index : Fin 2) (strings : List Suffix) (B : Nat)
    (hk : ∀ s ∈ strings, getEntry Index s.entry < B) :
    ∃ L, countingSort Index strings (List.replicate B []) = .ok (L, List.replicate B []) ∧
      L.Perm strings ∧
      L.Pairwise (fun s t => getEntry Index s.entry ≤ getEntry Index t.entry) ∧
      ∀ b, L.filter (fun s => getEntry Index s.entry = b) =
        strings.filter (fun s => getEntry Index s.entry = b) := by
  refine ⟨bucketSort (fun s => getEntry Index s.entry) B strings,
    countingSort_spec Index strings B hk, bucketSort_perm _ strings B hk,
    bucketSort_sorted _ strings B, ?_⟩
  intro b
  rw [bucketSort_filter (fun s => getEntry Index s.entry) strings b B]
  by_cases hb : b < B
  · rw [if_pos hb]
  · rw [if_neg hb]
    symm
    rw [List.filter_eq_nil_iff]
    intro s hs
    have := hk s hs
    simp only [decide_eq_true_eq]
    omega

/-- Witness of C13: sorting by the second component keeps `(1, 2)` before
`(0, 2)`. -/
theorem countingSort_stable_witness :
    (∀ s ∈ [Suffix.mk (1, 2) 0, Suffix.mk (1, 0) 1, Suffix.mk (0, 2) 2],
        getEntry 1 s.entry < 3) ∧
      (∃ L, countingSort 1 [Suffix.mk (1, 2) 0, Suffix.mk (1, 0) 1, Suffix.mk (0, 2) 2]
          (List.replicate 3 []) = .ok (L, List.replicate 3 []) ∧
        L.Perm [Suffix.mk (1, 2) 0, Suffix.mk (1, 0) 1, Suffix.mk (0, 2) 2] ∧
        L.Pairwise (fun s t => getEntry 1 s.entry ≤ getEntry 1 t.entry) ∧
        ∀ b, L.filter (fun s => getEntry 1 s.entry = b) =
          [Suffix.mk (1, 2) 0, Suffix.mk (1, 0) 1, Suffix.mk (0, 2) 2].filter
            (fun s => getEntry 1 s.entry = b)) ∧
      countingSort 1 [Suffix.mk (1, 2) 0, Suffix.mk (1, 0) 1, Suffix.mk (0, 2) 2]
          (List.replicate 3 []) =
        .ok ([Suffix.mk (1, 0) 1, Suffix.mk (1, 2) 0, Suffix.mk (0, 2) 2], [[], [], []]) :=
  ⟨by decide,
    countingSort_stable 1 [Suffix.mk (1, 2) 0, Suffix.mk (1, 0) 1, Suffix.mk (0, 2) 2] 3
      (by decide), rfl⟩

/-! ## Rank recomputation as stated in the specification -/

theorem keySet_cons (s : Suffix) (tail : List Suffix) :
    keySet (s :: tail) = insert s.entry (keySet tail) := by
  simp [keySet]

theorem mem_keySet {L : List Suffix} {e : Nat × Nat} :
    e ∈ keySet L ↔ ∃ s ∈ L, s.entry = e := by
  simp [keySet]

theorem keysBelow_head (s : Suffix) (tail : List Suffix)
    (hle : ∀ u ∈ tail, lexLE s.entry u.entry) : keysBelow (s :: tail) s.entry = 0 := by
  unfold keysBelow
  rw [Finset.card_eq_zero, Finset.filter_eq_empty_iff]
  intro e he
  obtain ⟨u, hu, rfl⟩ := mem_keySet.mp he
  rcases List.mem_cons.mp hu with h | h
  · subst h; exact lexLT_irrefl _
  · exact not_lexLT_of_lexLE (hle u h)

theorem keySet_cons_of_eq (s t : Suffix) (rest : List Suffix) (h : s.entry = t.entry) :
    keySet (s :: t :: rest) = keySet (t :: rest) := by
  rw [keySet_cons]
  apply Finset.insert_eq_of_mem
  exact mem_keySet.mpr ⟨t, by simp, h.symm⟩

theorem not_mem_keySet_of_lt (s t : Suffix) (rest : List Suffix)
    (hlt : lexLT s.entry t.entry) (hle : ∀ u ∈ rest, lexLE t.entry u.entry) :
    s.entry ∉ keySet (t :: rest) := by
  intro hmem
  obtain ⟨u, hu, he⟩ := mem_keySet.mp hmem
  have hle2 : lexLE t.entry u.entry := by
    rcases List.mem_cons.mp hu with h | h
    · subst h; unfold lexLE; omega
    · exact hle u h
  have := lexLT_of_lexLT_of_lexLE hlt hle2
  rw [he] at this
  exact lexLT_irrefl _ this

theorem recompute_ranks (L : List Suffix) :
    ∀ (idx : Nat) (result : List Nat),
      L.Pairwise (fun s t => lexLE s.entry t.entry) →
      (L.map Suffix.index).Nodup →
      (∀ s ∈ L, s.index < result.length) →
      ∃ r1, recompute L idx result = .ok r1 ∧
        (∀ i, (∀ s ∈ L, s.index ≠ i) → r1.getD i 0 = result.getD i 0) ∧
        (∀ s, L.head? = some s → r1.getD s.index 0 = idx) ∧
        (∀ i s u, L[i]? = some s → L[i + 1]? = some u →
          r1.getD u.index 0 = r1.getD s.index 0 + if s.entry = u.entry then 0 else 1) ∧
        (∀ s ∈ L, r1.getD s.index 0 = idx + keysBelow L s.entry) ∧
        (∀ v, (∃ s ∈ L, r1.getD s.index 0 = v) ↔ idx ≤ v ∧ v < idx + distinctKeys L) := by
  induction L with
  | nil =>
    intro idx result _ _ _
    refine ⟨result, rfl, fun _ _ => rfl, by simp, by simp, by simp, ?_⟩
    intro v
    simp [distinctKeys, keySet]
  | cons s tail ih =>
    intro idx result hsorted hnodup hlt
    rw [List.pairwise_cons] at hsorted
    rw [List.map_cons, List.nodup_cons] at hnodup
    have hs : s.index < result.length := hlt s (by simp)
    have hsnot : ∀ u ∈ tail, u.index ≠ s.index := by
      intro u hu heq
      exact hnodup.1 (heq ▸ List.mem_map_of_mem Suffix.index hu)
    obtain ⟨r1, hr1, hsame, hhead, hadj, hcount, hrange⟩ :=
      ih (nextIndex s idx tail) (result.set s.index idx) hsorted.2 hnodup.2
        (by intro u hu; simpa using hlt u (by simp [hu]))
    have hsval : r1.getD s.index 0 = idx := by
      rw [hsame s.index hsnot]
      simp [List.getD_eq_getElem?_getD, List.getElem?_set, hs]
    refine ⟨r1, ?_, ?_, ?_, ?_, ?_, ?_⟩
    · rw [recompute_cons, writeAt_of_lt _ _ _ hs, bind_ok]; exact hr1
    · intro i hi
      rw [hsame i (fun u hu => hi u (by simp [hu]))]
      have : s.index ≠ i := hi s (by simp)
      simp [List.getD_eq_getElem?_getD, List.getElem?_set, this]
    · intro u hu
      simp only [List.head?_cons, Option.some.injEq] at hu
      subst hu; exact hsval
    · intro i a b ha hb
      cases i with
      | zero =>
        have ha1 : s = a := by simpa using ha
        subst ha1
        rw [zero_add, List.getElem?_cons_succ] at hb
        cases tail with
        | nil => simp at hb
        | cons t rest =>
          have hb1 : t = b := by simpa using hb
          subst hb1
          rw [hhead _ rfl, hsval]
          simp only [nextIndex]
          by_cases he : s.entry = t.entry <;> simp [he]
      | succ i =>
        rw [List.getElem?_cons_succ] at ha hb
        exact hadj i a b ha hb
    · intro u hu
      rcases List.mem_cons.mp hu with h | h
      · subst h
        rw [hsval, keysBelow_head _ tail hsorted.1]
        omega
      · rw [hcount u h]
        cases tail with
        | nil => simp at h
        | cons t rest =>
          have hle : lexLE t.entry u.entry := by
            rcases List.mem_cons.mp h with h2 | h2
            · subst h2; unfold lexLE; omega
            · exact (List.pairwise_cons.mp hsorted.2).1 u h2
          by_cases he : s.entry = t.entry
          · simp only [nextIndex, he, ne_eq, not_true_eq_false, ↓reduceIte]
            unfold keysBelow
            rw [keySet_cons_of_eq s t rest he]
          · have hlt1 : lexLT s.entry t.entry :=
              lexLT_of_lexLE_of_ne (hsorted.1 t (by simp)) he
            have hnm := not_mem_keySet_of_lt s t rest hlt1 (List.pairwise_cons.mp hsorted.2).1
            have hsu : lexLT s.entry u.entry := lexLT_of_lexLT_of_lexLE hlt1 hle
            simp only [nextIndex, ne_eq, he, not_false_eq_true, ↓reduceIte]
            unfold keysBelow
            rw [keySet_cons s (t :: rest), Finset.filter_insert, if_pos hsu,
              Finset.card_insert_of_not_mem (by
                intro hc; exact hnm (Finset.mem_filter.mp hc).1)]
            omega
    · intro v
      have hsplit : (∃ u ∈ s :: tail, r1.getD u.index 0 = v) ↔
          (idx = v ∨ ∃ u ∈ tail, r1.getD u.index 0 = v) := by
        constructor
        · rintro ⟨u, hu, hv⟩
          rcases List.mem_cons.mp hu with h | h
          · subst h; left; rw [← hv, hsval]
          · right; exact ⟨u, h, hv⟩
        · rintro (h | ⟨u, hu, hv⟩)
          · exact ⟨s, by simp, by rw [hsval, h]⟩
          · exact ⟨u, by simp [hu], hv⟩
      rw [hsplit, hrange v]
      cases tail with
      | nil =>
        simp only [nextIndex, distinctKeys, keySet, List.map_nil, List.toFinset_nil,
          Finset.card_empty, List.map_cons, List.toFinset_cons, insert_emptyc_eq,
          Finset.card_singleton]
        omega
      | cons t rest =>
        have hpos : 0 < distinctKeys (t :: rest) := by
          unfold distinctKeys
          rw [Finset.card_pos]
          exact ⟨t.entry, mem_keySet.mpr ⟨t, by simp, rfl⟩⟩
        by_cases he : s.entry = t.entry
        · simp only [nextIndex, he, ne_eq, not_true_eq_false, ↓reduceIte]
          have : distinctKeys (s :: t :: rest) = distinctKeys (t :: rest) := by
            unfold distinctKeys; rw [keySet_cons_of_eq s t rest he]
          rw [this]
          omega
        · have hlt1 : lexLT s.entry t.entry :=
            lexLT_of_lexLE_of_ne (hsorted.1 t (by simp)) he
          have hnm := not_mem_keySet_of_lt s t rest hlt1 (List.pairwise_cons.mp hsorted.2).1
          simp only [nextIndex, ne_eq, he, not_false_eq_true, ↓reduceIte]
          have : distinctKeys (s :: t :: rest) = distinctKeys (t :: rest) + 1 := by
            unfold distinctKeys
            rw [keySet_cons s (t :: rest), Finset.card_insert_of_not_mem hnm]
          rw [this]
          omega

/-- C14 (rank recomputation): given the sorted list of composite keys, whose
position tags form a permutation of `[0, m)`, the recompute loop returns; it
gives rank 0 to the position of the first entry and to the position of every
later entry the rank of its predecessor if the two composite keys are equal
and that rank plus 1 otherwise; the new rank of a position is the number of
distinct composite keys strictly smaller than its own; and the new ranks are
exactly the values below the number of distinct keys. -/
theorem recompute_contract (L : List Suffix) (result : List Nat)
    (hsorted : L.Pairwise (fun s t => lexLE s.entry t.entry))
    (hperm : (L.map Suffix.index).Perm (List.range result.length)) :
    ∃ r1, recompute L 0 result = .ok r1 ∧ r1.length = result.length ∧
      (∀ s, L.head? = some s → r1.getD s.index 0 = 0) ∧
      (∀ i s u, L[i]? = some s → L[i + 1]? = some u →
        r1.getD u.index 0 = r1.getD s.index 0 + if s.entry = u.entry then 0 else 1) ∧
      (∀ s ∈ L, r1.getD s.index 0 = keysBelow L s.entry) ∧
      (∀ v, (∃ p, p < result.length ∧ r1.getD p 0 = v) ↔ v < distinctKeys L) := by
  have hnodup : (L.map Suffix.index).Nodup := hperm.nodup_iff.mpr (List.nodup_range _)
  have hlt : ∀ s ∈ L, s.index < result.length := by
    intro s hs
    exact List.mem_range.mp (hperm.mem_iff.mp (List.mem_map_of_mem Suffix.index hs))
  obtain ⟨r1, hr1, _, hhead, hadj, hcount, hrange⟩ :=
    recompute_ranks L 0 result hsorted hnodup hlt
  refine ⟨r1, hr1, recompute_length _ _ _ _ hr1, hhead, hadj, ?_, ?_⟩
  · intro s hs
    rw [hcount s hs, Nat.zero_add]
  · intro v
    rw [show v < distinctKeys L ↔ 0 ≤ v ∧ v < 0 + distinctKeys L by omega, ← hrange v]
    constructor
    · rintro ⟨p, hp, hv⟩
      obtain ⟨s, hs, he⟩ := List.mem_map.mp (hperm.mem_iff.mpr (List.mem_range.mpr hp))
      exact ⟨s, hs, by rw [he]; exact hv⟩
    · rintro ⟨s, hs, hv⟩
      exact ⟨s.index, hlt s hs, hv⟩

/-- Witness of C14 on three sorted entries with two distinct keys. -/
theorem recompute_contract_witness :
    [Suffix.mk (0, 0) 2, Suffix.mk (1, 0) 1, Suffix.mk (1, 0) 0].Pairwise
        (fun s t => lexLE s.entry t.entry) ∧
      ([Suffix.mk (0, 0) 2, Suffix.mk (1, 0) 1, Suffix.mk (1, 0) 0].map Suffix.index).Perm
        (List.range [1, 1, 0].length) ∧
      (∃ r1, recompute [Suffix.mk (0, 0) 2, Suffix.mk (1, 0) 1, Suffix.mk (1, 0) 0] 0 [1, 1, 0]
          = .ok r1 ∧ r1.length = [1, 1, 0].length ∧
        (∀ s, [Suffix.mk (0, 0) 2, Suffix.mk (1, 0) 1, Suffix.mk (1, 0) 0].head? = some s →
          r1.getD s.index 0 = 0) ∧
        (∀ i s u, [Suffix.mk (0, 0) 2, Suffix.mk (1, 0) 1, Suffix.mk (1, 0) 0][i]? = some s →
          [Suffix.mk (0, 0) 2, Suffix.mk (1, 0) 1, Suffix.mk (1, 0) 0][i + 1]? = some u →
          r1.getD u.index 0 = r1.getD s.index 0 + if s.entry = u.entry then 0 else 1) ∧
        (∀ s ∈ [Suffix.mk (0, 0) 2, Suffix.mk (1, 0) 1, Suffix.mk (1, 0) 0],
          r1.getD s.index 0 =
            keysBelow [Suffix.mk (0, 0) 2, Suffix.mk (1, 0) 1, Suffix.mk (1, 0) 0] s.entry) ∧
        (∀ v, (∃ p, p < [1, 1, 0].length ∧ r1.getD p 0 = v) ↔
          v < distinctKeys [Suffix.mk (0, 0) 2, Suffix.mk (1, 0) 1, Suffix.mk (1, 0) 0])) ∧
      recompute [Suffix.mk (0, 0) 2, Suffix.mk (1, 0) 1, Suffix.mk (1, 0) 0] 0 [1, 1, 0]
        = .ok [1, 1, 0] :=
  ⟨by decide, by decide,
    recompute_contract [Suffix.mk (0, 0) 2, Suffix.mk (1, 0) 1, Suffix.mk (1, 0) 0] [1, 1, 0]
      (by decide) (by decide), rfl⟩

/-! ## Ranks only refine -/

theorem card_le_of_refines (r r1 : List Nat) (hlen : r1.length = r.length)
    (href : ∀ i j, i < r.length → j < r.length → r1.getD i 0 = r1.getD j 0 →
      r.getD i 0 = r.getD j 0) :
    r.toFinset.card ≤ r1.toFinset.card := by
  have hidx : ∀ v ∈ r.toFinset, r.indexOf v < r.length ∧ r.getD (r.indexOf v) 0 = v := by
    intro v hv
    have hlt : r.indexOf v < r.length := List.indexOf_lt_length.mpr (List.mem_toFinset.mp hv)
    exact ⟨hlt, by rw [List.getD_eq_getElem _ _ hlt]; exact List.getElem_indexOf hlt⟩
  apply Finset.card_le_card_of_injOn (fun v => r1.getD (r.indexOf v) 0)
  · intro v hv
    rw [List.mem_toFinset, List.getD_eq_getElem _ _ (by rw [hlen]; exact (hidx v hv).1)]
    exact List.getElem_mem _
  · intro v1 hv1 v2 hv2 he
    have h1 := hidx v1 hv1
    have h2 := hidx v2 hv2
    have := href _ _ h1.1 h2.1 he
    rw [h1.2, h2.2] at this
    exact this

theorem sortRecompute_spec (result : List Nat) (strings : List Suffix)
    (hidx : strings.map Suffix.index = List.range result.length)
    (h0 : ∀ s ∈ strings, s.entry.1 < result.length)
    (h1 : ∀ s ∈ strings, s.entry.2 < result.length) :
    ∃ r1, (radixSort strings >>= fun L => recompute L 0 result) = .ok r1 ∧
      r1.length = result.length ∧
      ∀ s ∈ strings, ∀ t ∈ strings,
        (r1.getD s.index 0 < r1.getD t.index 0 ↔ lexLT s.entry t.entry) := by
  have hlenS : strings.length = result.length := by
    have := congrArg List.length hidx
    simpa using this
  have h0S : ∀ s ∈ strings, s.entry.1 < strings.length := by rw [hlenS]; exact h0
  have h1S : ∀ s ∈ strings, s.entry.2 < strings.length := by rw [hlenS]; exact h1
  have hperm := radixSorted_perm strings h0S h1S
  have hnodup : ((radixSorted strings).map Suffix.index).Nodup := by
    rw [(hperm.map Suffix.index).nodup_iff, hidx]
    exact List.nodup_range _
  have hlt : ∀ s ∈ radixSorted strings, s.index < result.length := by
    intro s hs
    have : s.index ∈ strings.map Suffix.index :=
      List.mem_map_of_mem Suffix.index (hperm.mem_iff.mp hs)
    rw [hidx] at this
    exact List.mem_range.mp this
  obtain ⟨r1, hr1, hlen, _, _, hcmp, _⟩ :=
    recompute_spec _ 0 result (radixSorted_sorted strings) hnodup hlt
  refine ⟨r1, ?_, hlen, ?_⟩
  · rw [radixSort_spec strings h0S h1S, bind_ok]; exact hr1
  · intro s hs t ht
    exact hcmp s (hperm.mem_iff.mpr hs) t (hperm.mem_iff.mpr ht)

theorem buildStringsW_index (bits : Nat) (result : List Nat) (halfSize : Nat) :
    (buildStringsW bits result halfSize).map Suffix.index = List.range result.length := by
  simp only [buildStringsW, List.map_map]
  conv_rhs => rw [← List.map_id (List.range result.length)]
  apply List.map_congr_left
  intro i _
  rfl

theorem makeSuffixW_eq (bits : Nat) (result : List Nat) (halfSize i : Nat)
    (hi : i < result.length) (hw : halfSize + result.length ≤ 2 ^ bits) :
    makeSuffixW bits result halfSize i = makeSuffix result halfSize i := by
  have : (i + halfSize) % 2 ^ bits = i + halfSize := Nat.mod_eq_of_lt (by omega)
  simp only [makeSuffixW, makeSuffix, this]

theorem iterationW_eq (bits : Nat) (result : List Nat) (halfSize : Nat)
    (hw : halfSize + result.length ≤ 2 ^ bits) :
    iterationW bits result halfSize = iteration result halfSize := by
  have : buildStringsW bits result halfSize = buildStrings result halfSize := by
    unfold buildStringsW buildStrings
    apply List.map_congr_left
    intro i hi
    exact makeSuffixW_eq bits result halfSize i (List.mem_range.mp hi) hw
  simp only [iterationW, iteration, this]

/-- C15 (ranks only refine): one execution of the loop body, with any window
and with `i + halfSize` computed in a machine word of any width, on a rank
array of length `m` whose values are all below `m` returns an array of the
same length in which a strictly smaller old rank gives a strictly smaller new
rank; so positions with equal new ranks had equal old ranks, and the number of
distinct rank values does not decrease.  When `halfSize + m` fits in the word
this body is the body `iteration` of the doubling loop. -/
theorem ranks_refine (bits : Nat) (r : List Nat) (w : Nat)
    (hr : ∀ p, p < r.length → r.getD p 0 < r.length) :
    (∃ r1, iterationW bits r w = .ok r1 ∧ r1.length = r.length ∧
      (∀ i j, i < r.length → j < r.length → r.getD i 0 < r.getD j 0 →
        r1.getD i 0 < r1.getD j 0) ∧
      (∀ i j, i < r.length → j < r.length → r1.getD i 0 = r1.getD j 0 →
        r.getD i 0 = r.getD j 0) ∧
      r.toFinset.card ≤ r1.toFinset.card) ∧
    (w + r.length ≤ 2 ^ bits → iterationW bits r w = iteration r w) := by
  refine ⟨?_, iterationW_eq bits r w⟩
  have hmemW : ∀ p, p < r.length → makeSuffixW bits r w p ∈ buildStringsW bits r w := by
    intro p hp
    exact List.mem_map.mpr ⟨p, List.mem_range.mpr hp, rfl⟩
  have h0 : ∀ s ∈ buildStringsW bits r w, s.entry.1 < r.length := by
    intro s hs
    obtain ⟨i, hi, rfl⟩ := List.mem_map.mp hs
    exact hr i (List.mem_range.mp hi)
  have h1 : ∀ s ∈ buildStringsW bits r w, s.entry.2 < r.length := by
    intro s hs
    obtain ⟨i, hi, rfl⟩ := List.mem_map.mp hs
    simp only [makeSuffixW]
    split
    · rename_i h; exact hr _ h
    · exact Nat.lt_of_le_of_lt (Nat.zero_le _) (List.mem_range.mp hi)
  obtain ⟨r1, hr1, hlen, hcmp⟩ :=
    sortRecompute_spec r (buildStringsW bits r w) (buildStringsW_index bits r w) h0 h1
  have hmono : ∀ i j, i < r.length → j < r.length →
      r.getD i 0 < r.getD j 0 → r1.getD i 0 < r1.getD j 0 := by
    intro i j hi hj hlt
    exact (hcmp _ (hmemW i hi) _ (hmemW j hj)).mpr (Or.inl hlt)
  have href : ∀ i j, i < r.length → j < r.length →
      r1.getD i 0 = r1.getD j 0 → r.getD i 0 = r.getD j 0 := by
    intro i j hi hj he
    rcases Nat.lt_trichotomy (r.getD i 0) (r.getD j 0) with h | h | h
    · have := hmono i j hi hj h; omega
    · exact h
    · have := hmono j i hj hi h; omega
  exact ⟨r1, hr1, hlen, hmono, href, card_le_of_refines r r1 hlen href⟩

/-- Witness of C15: the body on `[1,1,0]` with the largest 64-bit window, where
every sum but the first wraps, and on the ranks of `banana$` with window 1,
where none does. -/
theorem ranks_refine_witness :
    (∀ p, p < [1, 1, 0].length → [1, 1, 0].getD p 0 < [1, 1, 0].length) ∧
      ((∃ r1, iterationW 64 [1, 1, 0] (2 ^ 64 - 1) = .ok r1 ∧ r1.length = [1, 1, 0].length ∧
        (∀ i j, i < [1, 1, 0].length → j < [1, 1, 0].length →
          [1, 1, 0].getD i 0 < [1, 1, 0].getD j 0 → r1.getD i 0 < r1.getD j 0) ∧
        (∀ i j, i < [1, 1, 0].length → j < [1, 1, 0].length →
          r1.getD i 0 = r1.getD j 0 → [1, 1, 0].getD i 0 = [1, 1, 0].getD j 0) ∧
        [1, 1, 0].toFinset.card ≤ r1.toFinset.card) ∧
      (2 ^ 64 - 1 + [1, 1, 0].length ≤ 2 ^ 64 →
        iterationW 64 [1, 1, 0] (2 ^ 64 - 1) = iteration [1, 1, 0] (2 ^ 64 - 1))) ∧
      iterationW 64 [1, 1, 0] (2 ^ 64 - 1) = .ok [1, 2, 0] ∧
      iterationW 64 [2, 1, 3, 1, 3, 1, 0] 1 = .ok [3, 2, 4, 2, 4, 1, 0] ∧
      iteration [2, 1, 3, 1, 3, 1, 0] 1 = .ok [3, 2, 4, 2, 4, 1, 0] :=
  ⟨by decide, ranks_refine 64 [1, 1, 0] (2 ^ 64 - 1) (by decide), rfl, rfl, rfl⟩

/-! ## Inversion, iteration count and index safety -/

/-- C16 (inversion): on a rank-encoded text of length at least 1 whose last
element is strictly smaller than every other element, the rank array with
which the loop exits is a bijection from the positions onto `[0, m)`, and the
returned array is its inverse: `output[rank[i]] = i` for every position `i`,
and `rank[output[v]] = v` for every `v` below `m`. -/
theorem rank_inversion (text : List Nat) (hlen : 1 ≤ text.length) (hr : InRange text)
    (hs : Sentinel text) :
    ∃ r sa, doublingLoop (text.length + 1) 1 text = .ok r ∧ manberMyers text = .ok sa ∧
      r.length = text.length ∧ sa.length = text.length ∧
      (∀ i, i < text.length → r.getD i 0 < text.length) ∧
      (∀ i j, i < text.length → j < text.length → r.getD i 0 = r.getD j 0 → i = j) ∧
      (∀ v, v < text.length → ∃ i, i < text.length ∧ r.getD i 0 = v) ∧
      (∀ i, i < text.length → sa.getD (r.getD i 0) 0 = i) ∧
      (∀ v, v < text.length → r.getD (sa.getD v 0) 0 = v) := by
  obtain ⟨r, sa, hloop, hsa, hrlen, hsalen, hperm, _, hinv⟩ := manberMyers_spec text hlen hr hs
  have hnd : r.Nodup := hperm.nodup_iff.mpr (List.nodup_range _)
  refine ⟨r, sa, hloop, hsa, hrlen, hsalen, ?_, ?_, ?_, hinv, ?_⟩
  · intro i hi
    have : r.getD i 0 ∈ r := by
      rw [List.getD_eq_getElem _ _ (by omega)]; exact List.getElem_mem _
    exact List.mem_range.mp (hperm.mem_iff.mp this)
  · intro i j hi hj he
    have hi1 : i < r.length := by omega
    have hj1 : j < r.length := by omega
    rw [List.getD_eq_getElem r 0 hi1, List.getD_eq_getElem r 0 hj1] at he
    exact (hnd.getElem_inj_iff).mp he
  · intro v hv
    exact exists_rank_eq hrlen hperm hv
  · intro v hv
    obtain ⟨i, hi, he⟩ := exists_rank_eq hrlen hperm hv
    rw [← he, hinv i hi]

/-- Witness of C16 on the text `banana$`. -/
theorem rank_inversion_witness :
    1 ≤ [2, 1, 3, 1, 3, 1, 0].length ∧ InRange [2, 1, 3, 1, 3, 1, 0] ∧
      Sentinel [2, 1, 3, 1, 3, 1, 0] ∧
      ∃ r sa, doublingLoop ([2, 1, 3, 1, 3, 1, 0].length + 1) 1 [2, 1, 3, 1, 3, 1, 0] = .ok r ∧
        manberMyers [2, 1, 3, 1, 3, 1, 0] = .ok sa ∧
        r.length = [2, 1, 3, 1, 3, 1, 0].length ∧ sa.length = [2, 1, 3, 1, 3, 1, 0].length ∧
        (∀ i, i < [2, 1, 3, 1, 3, 1, 0].length → r.getD i 0 < [2, 1, 3, 1, 3, 1, 0].length) ∧
        (∀ i j, i < [2, 1, 3, 1, 3, 1, 0].length → j < [2, 1, 3, 1, 3, 1, 0].length →
          r.getD i 0 = r.getD j 0 → i = j) ∧
        (∀ v, v < [2, 1, 3, 1, 3, 1, 0].length →
          ∃ i, i < [2, 1, 3, 1, 3, 1, 0].length ∧ r.getD i 0 = v) ∧
        (∀ i, i < [2, 1, 3, 1, 3, 1, 0].length → sa.getD (r.getD i 0) 0 = i) ∧
        (∀ v, v < [2, 1, 3, 1, 3, 1, 0].length → r.getD (sa.getD v 0) 0 = v) :=
  ⟨by decide, by decide, by decide,
    rank_inversion [2, 1, 3, 1, 3, 1, 0] (by decide) (by decide) (by decide)⟩

theorem doublingLoopTrace_eq (n : Nat) :
    ∀ (j fuel : Nat) (r windows : List Nat), j + n = Nat.clog 2 r.length → n < fuel →
      doublingLoopTrace fuel (2 ^ j) r windows =
        (doublingLoop fuel (2 ^ j) r).map
          (fun x => (x, windows ++ (List.range' j n).map (fun k => 2 ^ k))) := by
  induction n with
  | zero =>
    intro j fuel r windows hj hf
    obtain ⟨fuel1, rfl⟩ : ∃ k, fuel = k + 1 := ⟨fuel - 1, by omega⟩
    have hn : ¬ 2 ^ j < r.length := by
      rw [Nat.pow_lt_iff_lt_clog (by decide)]; omega
    simp only [doublingLoopTrace, doublingLoop, if_neg hn, List.range'_zero, List.map_nil,
      List.append_nil]
    rfl
  | succ n ih =>
    intro j fuel r windows hj hf
    obtain ⟨fuel1, rfl⟩ : ∃ k, fuel = k + 1 := ⟨fuel - 1, by omega⟩
    have hlt : 2 ^ j < r.length := by
      rw [Nat.pow_lt_iff_lt_clog (by decide)]; omega
    simp only [doublingLoopTrace, doublingLoop, if_pos hlt]
    cases hi : iteration r (2 ^ j) with
    | error e => rfl
    | ok r1 =>
      have hlen := iteration_length hi
      have h := ih (j + 1) fuel1 r1 (windows ++ [2 ^ j]) (by rw [hlen]; omega) (by omega)
      rw [Nat.pow_succ] at h
      simp only [bind_ok, h]
      have e : windows ++ [2 ^ j] ++ (List.range' (j + 1) n).map (fun k => 2 ^ k) =
          windows ++ (List.range' j (n + 1)).map (fun k => 2 ^ k) := by
        simp [List.range'_succ]
      rw [e]

/-- C17 (iteration count): whatever the text, a run of the doubling loop that
returns has executed its body exactly `⌈log2 m⌉` times, with the windows
`1, 2, 4, ..., 2^(k-1)` in this order, `k = ⌈log2 m⌉` being the least number
with `m ≤ 2^k`; and the loop does return on every text whose elements are all
below its length. -/
theorem iteration_count (text : List Nat) :
    doublingLoopTrace (text.length + 1) 1 text [] =
        (doublingLoop (text.length + 1) 1 text).map
          (fun r => (r, (List.range (Nat.clog 2 text.length)).map (fun k => 2 ^ k))) ∧
      ((List.range (Nat.clog 2 text.length)).map (fun k => 2 ^ k)).length =
        Nat.clog 2 text.length ∧
      text.length ≤ 2 ^ Nat.clog 2 text.length ∧
      (∀ k, text.length ≤ 2 ^ k → Nat.clog 2 text.length ≤ k) ∧
      (InRange text → ∃ r, doublingLoopTrace (text.length + 1) 1 text [] =
        .ok (r, (List.range (Nat.clog 2 text.length)).map (fun k => 2 ^ k))) := by
  have hclog : Nat.clog 2 text.length < text.length + 1 := by
    have : Nat.clog 2 text.length ≤ text.length :=
      (Nat.le_pow_iff_clog_le (by decide)).mp (Nat.le_of_lt (Nat.lt_two_pow _))
    omega
  have h := doublingLoopTrace_eq (Nat.clog 2 text.length) 0 (text.length + 1) text []
    (by omega) hclog
  rw [Nat.pow_zero, List.nil_append, ← List.range_eq_range'] at h
  refine ⟨h, by simp, Nat.le_pow_clog (by decide) _,
    fun k hk => (Nat.le_pow_iff_clog_le (by decide)).mp hk, fun hr => ?_⟩
  obtain ⟨r, _, hloop, _⟩ := manberMyers_total text hr
  exact ⟨r, by rw [h, hloop]; rfl⟩

/-- Witness of C17 on the text `banana$`: three executions, windows 1, 2, 4. -/
theorem iteration_count_witness :
    InRange [2, 1, 3, 1, 3, 1, 0] ∧
      (∃ r, doublingLoopTrace ([2, 1, 3, 1, 3, 1, 0].length + 1) 1 [2, 1, 3, 1, 3, 1, 0] [] =
        .ok (r, (List.range (Nat.clog 2 [2, 1, 3, 1, 3, 1, 0].length)).map (fun k => 2 ^ k))) ∧
      doublingLoopTrace ([2, 1, 3, 1, 3, 1, 0].length + 1) 1 [2, 1, 3, 1, 3, 1, 0] [] =
        .ok ([4, 3, 6, 2, 5, 1, 0], [1, 2, 4]) :=
  ⟨by decide, (iteration_count [2, 1, 3, 1, 3, 1, 0]).2.2.2.2 (by decide), rfl⟩

theorem countingSort_pass (Index : Fin 2) (strings : List Suffix) (B : Nat)
    (hk : ∀ s ∈ strings, getEntry Index s.entry < B) :
    ∃ buckets1, distribute Index strings (List.replicate B []) = .ok buckets1 ∧
      buckets1.length = B ∧ buckets1.flatten.length = strings.length ∧
      gather buckets1 strings 0 =
        .ok (bucketSort (fun s => getEntry Index s.entry) B strings, List.replicate B []) ∧
      (bucketSort (fun s => getEntry Index s.entry) B strings).length = strings.length := by
  obtain ⟨b1, hb1, _, _⟩ := distribute_spec Index strings (List.replicate B [])
    (by simpa using hk)
  obtain ⟨h1, h2⟩ := distribute_size Index strings _ _ hb1
  have hspec := countingSort_spec Index strings B hk
  rw [countingSort, hb1, bind_ok] at hspec
  refine ⟨b1, hb1, by simpa using h1, ?_, hspec, (bucketSort_perm _ strings B hk).length_eq⟩
  rw [h2, flatten_replicate_nil, List.length_nil, Nat.zero_add]

/-- C18 (index safety): on a text whose elements are all below its length `m`,
with or without a sentinel, every execution of the loop body builds keys whose
components are below `m`; in both passes of `countingSort` every entry goes
into one of the `m` buckets, the buckets then hold `m` entries in total and
the gather loop writes them to the `m` places of `strings`; the recompute loop
writes in range; the loop exits with ranks below `m`, and `manberMyers`
returns, so the final inversion writes in range as well. -/
theorem index_safety (text : List Nat) (hr : InRange text) :
    (∀ w r, Reaches text w r → w < text.length →
      (∀ s ∈ buildStrings r w, s.entry.1 < text.length ∧ s.entry.2 < text.length) ∧
      ∃ buckets1 strings1 buckets2 strings2 r1,
        distribute 1 (buildStrings r w) (List.replicate text.length []) = .ok buckets1 ∧
        buckets1.length = text.length ∧ buckets1.flatten.length = text.length ∧
        gather buckets1 (buildStrings r w) 0 = .ok (strings1, List.replicate text.length []) ∧
        strings1.length = text.length ∧
        (∀ s ∈ strings1, s.entry.1 < text.length) ∧
        distribute 0 strings1 (List.replicate text.length []) = .ok buckets2 ∧
        buckets2.length = text.length ∧ buckets2.flatten.length = text.length ∧
        gather buckets2 strings1 0 = .ok (strings2, List.replicate text.length []) ∧
        strings2.length = text.length ∧
        radixSort (buildStrings r w) = .ok strings2 ∧
        recompute strings2 0 r = .ok r1 ∧ iteration r w = .ok r1) ∧
    ∃ r sa, doublingLoop (text.length + 1) 1 text = .ok r ∧ r.length = text.length ∧
      (∀ p, p < text.length → r.getD p 0 < text.length) ∧ manberMyers text = .ok sa := by
  refine ⟨?_, manberMyers_total text hr⟩
  intro w r hreach hw
  obtain ⟨hlen, hb⟩ := reaches_range hr hreach
  have hbound := buildStrings_bound r w (by omega) (by rw [hlen]; exact hb)
  rw [hlen] at hbound
  have hlenS : (buildStrings r w).length = text.length := by rw [buildStrings_length, hlen]
  have hk1 : ∀ s ∈ buildStrings r w, getEntry 1 s.entry < text.length := by
    intro s hs; simpa [getEntry] using (hbound s hs).2
  obtain ⟨b1, hd1, hb1len, hb1flat, hg1, hs1len⟩ :=
    countingSort_pass 1 (buildStrings r w) text.length hk1
  have hp1 := bucketSort_perm (fun s => getEntry 1 s.entry) (buildStrings r w) text.length hk1
  have hs1 : ∀ s ∈ bucketSort (fun s => getEntry 1 s.entry) text.length (buildStrings r w),
      s.entry.1 < text.length := fun s hs => (hbound s (hp1.mem_iff.mp hs)).1
  have hk0 : ∀ s ∈ bucketSort (fun s => getEntry 1 s.entry) text.length (buildStrings r w),
      getEntry 0 s.entry < text.length := by
    intro s hs; simpa [getEntry] using hs1 s hs
  obtain ⟨b2, hd2, hb2len, hb2flat, hg2, hs2len⟩ := countingSort_pass 0 _ text.length hk0
  have hrs : radixSort (buildStrings r w) = .ok (radixSorted (buildStrings r w)) :=
    radixSort_spec _ (by intro s hs; rw [hlenS]; exact (hbound s hs).1)
      (by intro s hs; rw [hlenS]; exact (hbound s hs).2)
  have hrsd : radixSorted (buildStrings r w) =
      bucketSort (fun s => getEntry 0 s.entry) text.length
        (bucketSort (fun s => getEntry 1 s.entry) text.length (buildStrings r w)) := by
    unfold radixSorted; rw [hlenS]
  obtain ⟨r1, hit, _⟩ := iteration_spec r w (by omega) (by rw [hlen]; exact hb)
  have hrec : recompute (radixSorted (buildStrings r w)) 0 r = .ok r1 := by
    have h := hit
    rw [iteration, hrs, bind_ok] at h
    exact h
  rw [hrsd] at hrs hrec
  exact ⟨hbound, b1, _, b2, _, r1, hd1, hb1len, by rw [hb1flat, hlenS], hg1,
    by rw [hs1len, hlenS], hs1, hd2, hb2len, by rw [hb2flat, hs1len, hlenS], hg2,
    by rw [hs2len, hs1len, hlenS], hrs, hrec, hit⟩

/-- Witness of C18 on a text without a proper sentinel. -/
theorem index_safety_witness :
    InRange [0, 0, 0] ∧
      ∃ r sa, doublingLoop ([0, 0, 0].length + 1) 1 [0, 0, 0] = .ok r ∧
        r.length = [0, 0, 0].length ∧
        (∀ p, p < [0, 0, 0].length → r.getD p 0 < [0, 0, 0].length) ∧
        manberMyers [0, 0, 0] = .ok sa :=
  ⟨by decide, (index_safety [0, 0, 0] (by decide)).2⟩

/-- C19 (the sentinel condition is needed): `[0,0,0]` has all its elements
below its length but its smallest value three times; `manberMyers` returns on
it without a fault, and what it returns, `[2,0,0]`, is not a permutation of
`[0, 3)`. -/
theorem sentinel_needed :
    InRange [0, 0, 0] ∧ ¬ Sentinel [0, 0, 0] ∧ [0, 0, 0].count 0 = 3 ∧
      manberMyers [0, 0, 0] = .ok [2, 0, 0] ∧
      ¬ [2, 0, 0].Perm (List.range [0, 0, 0].length) := by
  refine ⟨by decide, by decide, by decide, rfl, ?_⟩
  intro h
  exact absurd (h.count_eq 1) (by decide)

/-- C20 (buckets left clean): a call of `countingSort` that returns leaves as
many buckets as it was given, all of them empty; so in `radixSort` the second
pass runs on the empty buckets with which the first pass started. -/
theorem buckets_clean :
    (∀ (Index : Fin 2) (strings strings1 : List Suffix) (buckets buckets1 : List (List Suffix)),
      countingSort Index strings buckets = .ok (strings1, buckets1) →
        buckets1.length = buckets.length ∧ (∀ b ∈ buckets1, b = []) ∧
        buckets1 = List.replicate buckets.length []) ∧
    (∀ strings : List Suffix, radixSort strings =
      (countingSort 1 strings (List.replicate strings.length [])) >>= fun p =>
        (countingSort 0 p.1 (List.replicate strings.length [])) >>= fun q => .ok q.1) := by
  constructor
  · intro Index strings strings1 buckets buckets1 h
    obtain ⟨_, h2⟩ := countingSort_size Index strings strings1 buckets buckets1 h
    refine ⟨by rw [h2, List.length_replicate], ?_, h2⟩
    intro b hb
    rw [h2] at hb
    exact (List.mem_replicate.mp hb).2
  · intro strings
    rw [radixSort]
    cases h1 : countingSort 1 strings (List.replicate strings.length []) with
    | error e => rfl
    | ok p =>
      obtain ⟨s1, b1⟩ := p
      obtain ⟨_, hb1⟩ := countingSort_size 1 strings s1 _ b1 h1
      rw [List.length_replicate] at hb1
      subst hb1
      rfl

/-- Witness of C20: a call with three entries and five empty buckets. -/
theorem buckets_clean_witness :
    countingSort 0 [Suffix.mk (1, 0) 0, Suffix.mk (0, 0) 1, Suffix.mk (0, 0) 2]
        (List.replicate 5 []) =
      .ok ([Suffix.mk (0, 0) 1, Suffix.mk (0, 0) 2, Suffix.mk (1, 0) 0],
        List.replicate 5 []) ∧
    ((List.replicate 5 ([] : List Suffix)).length =
        (List.replicate 5 ([] : List Suffix)).length ∧
      (∀ b ∈ List.replicate 5 ([] : List Suffix), b = []) ∧
      List.replicate 5 ([] : List Suffix) =
        List.replicate (List.replicate 5 ([] : List Suffix)).length []) :=
  ⟨rfl, buckets_clean.1 0 [Suffix.mk (1, 0) 0, Suffix.mk (0, 0) 1, Suffix.mk (0, 0) 2]
    [Suffix.mk (0, 0) 1, Suffix.mk (0, 0) 2, Suffix.mk (1, 0) 0]
    (List.replicate 5 []) (List.replicate 5 []) rfl⟩

end ManberMyers
